import Mathlib

/-!
A verification development for the bousai_dx stockpile ledger
(`db.py` and the aggregation part of `app.py`).

Modelling conventions used throughout:
* Python `float` quantities are modelled as exact rationals (`ℚ`).
* `unicodedata.normalize("NFKC", s)` is modelled as the identity function
  (it is the identity on every string manipulated in this development).
* SQLite tables are modelled as lists of rows in rowid order; the
  `AUTOINCREMENT` primary key is the `nextId` counter of the `Ledger`.
* Timestamps (`created_at` / `updated_at`) are omitted: no property below
  mentions them and they only record the wall clock.
* Error-message strings reproduce the Python text except for the single
  quote characters around interpolated values.
-/

namespace Bousai

/-- Decidable equality for `Except`, used to evaluate the fallible
conversion functions on concrete inputs. -/
instance {ε α : Type} [DecidableEq ε] [DecidableEq α] :
    DecidableEq (Except ε α) := fun
  | .ok a, .ok b =>
    if h : a = b then .isTrue (by rw [h]) else .isFalse (by simp [h])
  | .ok _, .error _ => .isFalse (by simp)
  | .error _, .ok _ => .isFalse (by simp)
  | .error e, .error f =>
    if h : e = f then .isTrue (by rw [h]) else .isFalse (by simp [h])

/-- Python whitespace as used by `str.strip` and the regex class `\s`
on the characters occurring in this code base. -/
def pyIsSpace (c : Char) : Bool :=
  c = ' ' || c = '\t' || c = '\n' || c = '\r' || c = '\x0b' || c = '\x0c' ||
  c = ' ' || c = '　'

/-- `str.strip()` on a character list. -/
def pyStripList (cs : List Char) : List Char :=
  ((cs.dropWhile pyIsSpace).reverse.dropWhile pyIsSpace).reverse

/-- `str.strip()`. -/
def pyStrip (s : String) : String :=
  ⟨pyStripList s.data⟩

/-- `re.sub(r"\s+", " ", s)`: replace each maximal whitespace run by a
single space.  The boolean flag records whether the previous character
belonged to a whitespace run. -/
def collapseWsAux : Bool → List Char → List Char
  | _, [] => []
  | prev, c :: cs =>
    if pyIsSpace c then
      if prev then collapseWsAux true cs else ' ' :: collapseWsAux true cs
    else c :: collapseWsAux false cs

/-- Python `str.lower()` restricted to the ASCII and full-width Latin
letters that occur in this code base. -/
def pyToLower (c : Char) : Char :=
  if 'A' ≤ c ∧ c ≤ 'Z' then Char.ofNat (c.toNat + 32)
  else if 'Ａ' ≤ c ∧ c ≤ 'Ｚ' then Char.ofNat (c.toNat + 32)
  else c

/-- `str.lower()`. -/
def pyLower (s : String) : String :=
  ⟨s.data.map pyToLower⟩

/-- Python `a or b` for strings: the empty string is falsy. -/
def pyOrStr (s d : String) : String :=
  if s = "" then d else s

/-- Python `rr.get(k) or d` for an optional string field. -/
def pyGetOr (o : Option String) (d : String) : String :=
  match o with
  | some s => if s = "" then d else s
  | none => d

/-- Value of an ASCII digit. -/
def digVal (c : Char) : Nat := c.toNat - 48

/-- Numeric value of a list of ASCII digits. -/
def digitsToNat (ds : List Char) : Nat :=
  ds.foldl (fun a c => a * 10 + digVal c) 0

/-- Split off a maximal leading run of ASCII digits. -/
def splitDigits (cs : List Char) : List Char × List Char :=
  (cs.takeWhile Char.isDigit, cs.dropWhile Char.isDigit)

/-- Gregorian leap year, as Python's `calendar`/`datetime`. -/
def isLeap (y : Nat) : Bool :=
  (y % 4 = 0 && y % 100 ≠ 0) || y % 400 = 0

/-- Length of a month, as Python's `datetime`. -/
def daysInMonth (y m : Nat) : Nat :=
  if m = 2 then (if isLeap y then 29 else 28)
  else if m = 4 ∨ m = 6 ∨ m = 9 ∨ m = 11 then 30
  else 31

/-- Whether `datetime(y, m, d)` succeeds (Python `MINYEAR = 1`,
`MAXYEAR = 9999`). -/
def validYMD (y m d : Nat) : Bool :=
  1 ≤ y && y ≤ 9999 && 1 ≤ m && m ≤ 12 && 1 ≤ d && d ≤ daysInMonth y m

/-- Zero-pad to two digits, as in an ISO date. -/
def pad2 (n : Nat) : String :=
  if n < 10 then "0" ++ toString n else toString n

/-- Zero-pad to four digits, as in an ISO date. -/
def pad4 (n : Nat) : String :=
  if n < 10 then "000" ++ toString n
  else if n < 100 then "00" ++ toString n
  else if n < 1000 then "0" ++ toString n
  else toString n

/-- First separator class of `DATE_RE`. -/
def isSep1 (c : Char) : Bool := c = '/' || c = '-' || c = '.' || c = '年'

/-- Second separator class of `DATE_RE`. -/
def isSep2 (c : Char) : Bool := c = '/' || c = '-' || c = '.' || c = '月'

/-- Match the trailing `(\d{1,2})` of `DATE_RE` (greedy, nothing follows). -/
def matchDay : List Char → Option Nat
  | d1 :: d2 :: _ =>
    if d1.isDigit then
      if d2.isDigit then some (digitsToNat [d1, d2]) else some (digVal d1)
    else none
  | [d1] => if d1.isDigit then some (digVal d1) else none
  | [] => none

/-- Match `(\d{1,2})[\/\-\.\月](\d{1,2})` at the head of the list.  The
middle group is greedy with regex backtracking: two digits are taken when
the following character is a separator, otherwise one digit whose
following character must be a separator. -/
def matchMD : List Char → Option (Nat × Nat)
  | m1 :: m2 :: s :: rest =>
    if m1.isDigit then
      if m2.isDigit then
        if isSep2 s then (matchDay rest).map (fun dd => (digitsToNat [m1, m2], dd))
        else none
      else if isSep2 m2 then (matchDay (s :: rest)).map (fun dd => (digVal m1, dd))
      else none
    else none
  | _ => none

/-- Match the full `DATE_RE` pattern
`(\d{4})[\/\-\.\年](\d{1,2})[\/\-\.\月](\d{1,2})` at the head. -/
def matchDateAt : List Char → Option (Nat × Nat × Nat)
  | a :: b :: c :: d :: s1 :: rest =>
    if a.isDigit && b.isDigit && c.isDigit && d.isDigit && isSep1 s1 then
      (matchMD rest).map (fun md => (digitsToNat [a, b, c, d], md.1, md.2))
    else none
  | _ => none

/-- `DATE_RE.search`: leftmost position where the pattern matches. -/
def searchDate : List Char → Option (Nat × Nat × Nat)
  | [] => none
  | c :: cs =>
    match matchDateAt (c :: cs) with
    | some r => some r
    | none => searchDate cs

/-- `db.extract_iso_date`: search `DATE_RE`, validate via `datetime`,
return the ISO form, or `""`. -/
def extract_iso_date (text : String) : String :=
  match searchDate text.data with
  | none => ""
  | some (y, m, d) =>
    if validYMD y m d then pad4 y ++ "-" ++ pad2 m ++ "-" ++ pad2 d else ""

/-! ## The ledger store (`db.py`) -/

/-- `db.ALLOWED_DUE_TYPES`. -/
def ALLOWED_DUE_TYPES : List String := ["expiry", "inspection", "none"]

/-- `db.ALLOWED_ITEM_KINDS`. -/
def ALLOWED_ITEM_KINDS : List String := ["stock", "capacity"]

/-- `db.normalize_name`: NFKC (modelled as the identity), strip, and
collapse internal whitespace runs to single spaces. -/
def normalize_name (s : String) : String :=
  ⟨collapseWsAux false (pyStripList s.data)⟩

/-- `db.normalize_key`: `normalize_name(name).lower()`. -/
def normalize_key (s : String) : String :=
  pyLower (normalize_name s)

/-- `db.normalize_unit`: NFKC (identity), strip, then delete every
whitespace character. -/
def normalize_unit (s : String) : String :=
  ⟨(pyStripList s.data).filter (fun c => !pyIsSpace c)⟩

/-- `db.normalize_subtype`: same normalization as `normalize_name`. -/
def normalize_subtype (s : String) : String :=
  ⟨collapseWsAux false (pyStripList s.data)⟩

/-- `db._normalize_due(due_type, due_date, memo)`: returns the normalized
`(due_type, due_date, memo)` triple. -/
def normalize_due (due_type due_date memo : String) : String × String × String :=
  let dt0 := pyLower (pyStrip (pyOrStr due_type "none"))
  let dt := if ALLOWED_DUE_TYPES.contains dt0 then dt0 else "none"
  let dd := pyStrip due_date
  if dt = "none" then (dt, "", memo)
  else if dd = "" then
    let parsed := extract_iso_date memo
    if parsed ≠ "" then (dt, parsed, memo) else (dt, "", memo)
  else
    let iso := extract_iso_date dd
    if iso ≠ "" then (dt, iso, memo)
    else
      let extra := "(期限日付の形式が不明: " ++ dd ++ ")"
      (dt, "", if memo ≠ "" then pyStrip (memo ++ "\n" ++ extra) else extra)

/-- `db._normalize_item_kind`. -/
def normalize_item_kind (kind : String) : String :=
  let k := pyLower (pyStrip (pyOrStr kind "stock"))
  if ALLOWED_ITEM_KINDS.contains k then k else "stock"

/-- `category = str(category or "その他").strip() or "その他"` in
`_upsert_in_conn` / `update_stock`. -/
def categoryArg (c : String) : String :=
  pyOrStr (pyStrip (pyOrStr c "その他")) "その他"

/-- An input record, as the keyword arguments of `db._upsert_in_conn`. -/
structure Record where
  name : String
  qty : ℚ
  unit : String
  category : String
  item_kind : String
  subtype : String
  due_type : String
  due_date : String
  memo : String
deriving DecidableEq

/-- The canonical identity tuple
`(name_norm, category, item_kind, subtype, due_type, due_date, unit)`. -/
structure Key where
  name_norm : String
  category : String
  item_kind : String
  subtype : String
  due_type : String
  due_date : String
  unit : String
deriving DecidableEq

/-- A persisted row of the `stocks` table (timestamps omitted). -/
structure Row where
  id : Nat
  name : String
  name_norm : String
  qty : ℚ
  unit : String
  category : String
  item_kind : String
  subtype : String
  due_type : String
  due_date : String
  memo : String
deriving DecidableEq

/-- The canonical identity of a persisted row. -/
def Row.key (r : Row) : Key :=
  ⟨r.name_norm, r.category, r.item_kind, r.subtype, r.due_type, r.due_date, r.unit⟩

/-- The `stocks` table: rows in rowid order plus the AUTOINCREMENT
counter. -/
structure Ledger where
  rows : List Row
  nextId : Nat
deriving DecidableEq

/-- A freshly created `stocks` table. -/
def emptyLedger : Ledger := ⟨[], 1⟩

/-- The canonical identity `_upsert_in_conn` computes for an input
record (its SELECT key). -/
def recordKey (r : Record) : Key :=
  { name_norm := normalize_key (normalize_name r.name)
    category := categoryArg r.category
    item_kind := normalize_item_kind r.item_kind
    subtype := normalize_subtype r.subtype
    due_type := (normalize_due r.due_type r.due_date r.memo).1
    due_date := (normalize_due r.due_type r.due_date r.memo).2.1
    unit := normalize_unit r.unit }

/-- The normalized memo `_upsert_in_conn` works with. -/
def recordMemo (r : Record) : String :=
  (normalize_due r.due_type r.due_date r.memo).2.2

/-- The memo kept on a merge: the existing memo, unless it is empty and
the incoming (normalized) memo is not. -/
def mergeMemo (r : Record) (row : Row) : String :=
  if recordMemo r ≠ "" ∧ row.memo = "" then recordMemo r else row.memo

/-- The row `_upsert_in_conn` INSERTs for record `r` under rowid `i`. -/
def newRow (r : Record) (i : Nat) : Row :=
  { id := i
    name := normalize_name r.name
    name_norm := normalize_key (normalize_name r.name)
    qty := r.qty
    unit := normalize_unit r.unit
    category := categoryArg r.category
    item_kind := normalize_item_kind r.item_kind
    subtype := normalize_subtype r.subtype
    due_type := (normalize_due r.due_type r.due_date r.memo).1
    due_date := (normalize_due r.due_type r.due_date r.memo).2.1
    memo := recordMemo r }

inductive UpsertAction where
  | inserted
  | merged
deriving DecidableEq

/-- The row rewrite of the merge branch of `_upsert_in_conn`
(`UPDATE stocks SET qty=?, memo=?, updated_at=? WHERE id=?`). -/
def mergeFn (r : Record) (row row2 : Row) : Row :=
  if row2.id = row.id then
    { row2 with qty := row.qty + r.qty, memo := mergeMemo r row }
  else row2

/-- The merged row written by the merge branch of `_upsert_in_conn`. -/
def mergedRow (r : Record) (row : Row) : Row :=
  { row with qty := row.qty + r.qty, memo := mergeMemo r row }

/-- `db._upsert_in_conn`: validate, normalize, then merge into the first
row with the same canonical identity (adding the quantity, keeping the
existing memo unless empty) or insert a fresh row.  `float(qty or 0)` is
the identity on the rational model of the quantity. -/
def upsert_in_conn (r : Record) (L : Ledger) :
    Except String (UpsertAction × Nat × Ledger) :=
  if normalize_name r.name = "" then .error "name is empty"
  else if r.qty < 0 then .error "qty must be >= 0"
  else
    match L.rows.find? (fun row => decide (row.key = recordKey r)) with
    | some row =>
      .ok (.merged, row.id, { L with rows := L.rows.map (mergeFn r row) })
    | none =>
      .ok (.inserted, L.nextId,
        { rows := L.rows ++ [newRow r L.nextId], nextId := L.nextId + 1 })

/-- `db.upsert_stock`: one `_upsert_in_conn` in a transaction; on failure
the ledger is rolled back (left unchanged) and the error propagates. -/
def upsert_stock (r : Record) (L : Ledger) :
    Except String (UpsertAction × Nat) × Ledger :=
  match upsert_in_conn r L with
  | .ok (a, i, L2) => (.ok (a, i), L2)
  | .error e => (.error e, L)

/-- The ledger after `upsert_stock` (unchanged when the record was
rejected). -/
def upsertOk (r : Record) (L : Ledger) : Ledger :=
  match upsert_in_conn r L with
  | .ok (_, _, L2) => L2
  | .error _ => L

/-- A record `_upsert_in_conn` accepts: non-empty name after
normalization and a non-negative quantity. -/
def validRecord (r : Record) : Prop :=
  normalize_name r.name ≠ "" ∧ 0 ≤ r.qty

instance (r : Record) : Decidable (validRecord r) := by
  unfold validRecord; infer_instance

/-- `n` consecutive `upsert_stock` calls with the same record. -/
def applyTimes (r : Record) : Nat → Ledger → Ledger
  | 0, L => L
  | n + 1, L => applyTimes r n (upsertOk r L)

/-- All rows carrying a given canonical identity. -/
def rowsWithKey (L : Ledger) (k : Key) : List Row :=
  L.rows.filter (fun row => decide (row.key = k))

/-- Total stored quantity under a given canonical identity. -/
def keyQty (L : Ledger) (k : Key) : ℚ :=
  ((rowsWithKey L k).map Row.qty).sum

/-- Well-formedness guaranteed by the SQLite schema: rowids are pairwise
distinct and below the AUTOINCREMENT counter. -/
def WF (L : Ledger) : Prop :=
  L.rows.Pairwise (fun a b => a.id ≠ b.id) ∧ ∀ row ∈ L.rows, row.id < L.nextId

/-- The due-field invariant of the spec: a row with `due_type = "none"`
never retains a date. -/
def DueInv (L : Ledger) : Prop :=
  ∀ row ∈ L.rows, row.due_type = "none" → row.due_date = ""

/-- One per-record entry of the error list of `db.bulk_upsert`. -/
structure BulkError where
  index : Nat
  error : String
deriving DecidableEq

/-- The result dictionary of `db.bulk_upsert`. -/
structure BulkResult where
  inserted : Nat
  merged : Nat
  errors : List BulkError
  atomic : Bool
deriving DecidableEq

/-- The loop of `db.bulk_upsert`.  `L0` is the ledger at BEGIN (restored
on an atomic rollback), `cur` the ledger so far.  A failing record is
appended to the error list; under `atomic` it also aborts the batch,
rolling back to `L0` with zeroed counts. -/
def bulkGo (atomic : Bool) (L0 : Ledger) :
    List Record → Nat → Nat → Nat → List BulkError → Ledger →
    BulkResult × Ledger
  | [], _, ins, mer, errs, cur => (⟨ins, mer, errs, atomic⟩, cur)
  | it :: rest, idx, ins, mer, errs, cur =>
    match upsert_in_conn it cur with
    | .ok (a, _, cur2) =>
      if a = .inserted then bulkGo atomic L0 rest (idx + 1) (ins + 1) mer errs cur2
      else bulkGo atomic L0 rest (idx + 1) ins (mer + 1) errs cur2
    | .error e =>
      if atomic then (⟨0, 0, errs ++ [⟨idx, e⟩], true⟩, L0)
      else bulkGo atomic L0 rest (idx + 1) ins mer (errs ++ [⟨idx, e⟩]) cur

/-- `db.bulk_upsert(items, atomic=...)`.  Items are modelled as already
shaped `Record`s; the dictionary-key fallbacks of the call site
(`item_kind` falling back to `kind`, `float(qty or 0)`) happen at that
boundary. -/
def bulk_upsert (items : List Record) (atomic : Bool) (L : Ledger) :
    BulkResult × Ledger :=
  bulkGo atomic L items 0 0 0 [] L

/-- `db.bulk_upsert(items)` with the signature's default `atomic=True`. -/
def bulk_upsert_default (items : List Record) (L : Ledger) :
    BulkResult × Ledger :=
  bulk_upsert items true L

/-- The row rewrite of the collision branch of `db.update_stock`: the
colliding row absorbs the edited quantity and takes the incoming memo
(`memo or ""`), even when that memo is empty. -/
def updateMergeFn (r : Record) (target row : Row) : Row :=
  if row.id = target.id then
    { row with qty := target.qty + r.qty, memo := recordMemo r }
  else row

/-- The row rewrite of the in-place branch of `db.update_stock`: the
edited row is overwritten with every normalized field. -/
def updateSetFn (r : Record) (stock_id : Nat) (row : Row) : Row :=
  if row.id = stock_id then newRow r stock_id else row

/-- `db.update_stock(stock_id, ...)`: validate and normalize the edit; if
a *different* row already carries the edited canonical identity, add the
edited quantity to it, overwrite its memo with the incoming one, and
delete the edited row; otherwise rewrite the row in place. -/
def update_stock (stock_id : Nat) (r : Record) (L : Ledger) :
    Except String (String × Nat) × Ledger :=
  if normalize_name r.name = "" then (.error "name is empty", L)
  else if r.qty < 0 then (.error "qty must be >= 0", L)
  else
    match L.rows.find? (fun row =>
        decide (row.key = recordKey r ∧ row.id ≠ stock_id)) with
    | some target =>
      let kept := (L.rows.map (updateMergeFn r target)).filter
        (fun row => decide (row.id ≠ stock_id))
      (.ok ("merged_on_update", target.id), { L with rows := kept })
    | none =>
      (.ok ("updated", stock_id),
        { L with rows := L.rows.map (updateSetFn r stock_id) })

/-! ## Startup migration (`db.init_db`, legacy-schema branch) -/

/-- A row of a legacy `stocks` table: every column may be absent. -/
structure LegacyRow where
  name : Option String
  item : Option String
  product : Option String
  qty : Option ℚ
  category : Option String
  memo : Option String
  due_type : Option String
  due_date : Option String
  unit : Option String
  item_kind : Option String
  kind : Option String
  subtype : Option String
  type : Option String
deriving DecidableEq

/-- The per-row coercion of the replay loop in `db.init_db`
(lines 183–196): column fallbacks via Python `or`, legacy due-date
recovery from the memo, and the legacy `due_type` default. -/
def legacyToRecord (lr : LegacyRow) : Record :=
  let name := pyGetOr lr.name (pyGetOr lr.item (pyGetOr lr.product ""))
  let qty := lr.qty.getD 0
  let category := pyGetOr lr.category "その他"
  let memo := pyGetOr lr.memo ""
  let due_type0 := pyLower (pyStrip (pyGetOr lr.due_type ""))
  let due_date0 := pyStrip (pyGetOr lr.due_date "")
  let due_date1 := if due_date0 = "" then extract_iso_date memo else due_date0
  let due_type1 :=
    if ALLOWED_DUE_TYPES.contains due_type0 then due_type0
    else if due_date1 ≠ "" then "expiry" else "none"
  let unit := pyGetOr lr.unit ""
  let item_kind := pyGetOr lr.item_kind (pyGetOr lr.kind "stock")
  let subtype := pyGetOr lr.subtype (pyGetOr lr.type "")
  ⟨name, qty, unit, category, item_kind, subtype, due_type1, due_date1, memo⟩

/-- Replaying every legacy row through `_upsert_in_conn`; the first
failure aborts the replay. -/
def replayLegacy : List LegacyRow → Ledger → Except String Ledger
  | [], L => .ok L
  | lr :: rest, L =>
    match upsert_in_conn (legacyToRecord lr) L with
    | .ok (_, _, L2) => replayLegacy rest L2
    | .error e => .error e

/-- Python substring containment `needle in hay` on character lists. -/
def listContains (needle : List Char) : List Char → Bool
  | [] => needle.isEmpty
  | c :: cs => needle.isPrefixOf (c :: cs) || listContains needle cs

/-- Python substring containment `sub in s` on strings. -/
def strContains (s sub : String) : Bool :=
  listContains sub.data s.data

/-- `db._ensure_optional_columns`, row-content part: backfill the basis
unit for main-category rows whose unit is blank (`TRIM(unit)=''`).  The
`ALTER TABLE`/NULL backfills are no-ops in this model. -/
def ensureOptionalUnits (L : Ledger) : Ledger :=
  { L with rows := L.rows.map (fun row =>
      if pyStrip row.unit = "" ∧ strContains row.category "水・飲料" then
        { row with unit := "L" }
      else if pyStrip row.unit = "" ∧ strContains row.category "主食類" then
        { row with unit := "食" }
      else if pyStrip row.unit = "" ∧ strContains row.category "トイレ" then
        { row with unit := "回" }
      else row) }

/-- The first non-empty stripped memo of a duplicate group, as selected
by the `ORDER BY (TRIM(memo)='' ...), id ASC` query of `db._dedupe`. -/
def firstMemo : List String → String
  | [] => ""
  | m :: ms => if pyStrip m ≠ "" then pyStrip m else firstMemo ms

/-- `db._dedupe`, group-merge part: for every canonical identity held by
more than one row, keep the row with the smallest id (the first in rowid
order) with the summed quantity and the first non-empty memo, deleting
the others.  The NULL/blank backfill statements are no-ops on rows
produced by `_upsert_in_conn`. -/
def dedupeRows : List Row → List Row
  | [] => []
  | row :: rest =>
    let same := rest.filter (fun x => decide (x.key = row.key))
    let others := rest.filter (fun x => decide (¬ x.key = row.key))
    if same = [] then row :: dedupeRows others
    else
      { row with
        qty := row.qty + (same.map Row.qty).sum
        memo := firstMemo ((row :: same).map Row.memo) } :: dedupeRows others
termination_by l => l.length
decreasing_by
  all_goals
    simp only [List.length_cons]
    exact Nat.lt_succ_of_le (List.length_filter_le _ _)

/-- `db._dedupe` on a ledger. -/
def dedupe (L : Ledger) : Ledger :=
  { L with rows := dedupeRows L.rows }

/-- The outcome of the legacy-schema branch of `db.init_db`. -/
inductive MigResult where
  /-- Replay succeeded: the fresh table is active, the renamed legacy
  table is kept on disk. -/
  | migrated (active : Ledger) (legacyKept : List LegacyRow)
  /-- Replay failed: everything is rolled back, the fresh table is
  dropped, the legacy table is renamed back to `stocks`, and the error
  is re-raised. -/
  | rolledBack (err : String) (active : List LegacyRow)
deriving DecidableEq

/-- The legacy-schema branch of `db.init_db` (required columns missing):
rename `stocks` aside, create a fresh table, replay every legacy row
through `_upsert_in_conn`, then run the maintenance passes; on any
failure, roll back and restore the legacy table as `stocks`. -/
def init_db_migrate (legacy : List LegacyRow) : MigResult :=
  match replayLegacy legacy emptyLedger with
  | .ok L => .migrated (dedupe (ensureOptionalUnits L)) legacy
  | .error e => .rolledBack e legacy

/-! ## Aggregation (`app.py`) -/

/-- The keys of `app.CATEGORIES`, in insertion order. -/
def CATEGORY_KEYS : List String :=
  ["水・飲料", "主食類", "トイレ・衛生", "乳幼児用品", "寝具・避難", "資機材", "その他"]

/-- The loop body of `app.get_cat_key`: first canonical label contained
in the input wins, fallback `その他`. -/
def getCatKeyGo : List String → String → String
  | [], _ => "その他"
  | k :: ks, s => if strContains s k then k else getCatKeyGo ks s

/-- `app.get_cat_key`. -/
def get_cat_key (cat : String) : String :=
  getCatKeyGo CATEGORY_KEYS cat

/-- `app._norm_unit`: strip, then delete every whitespace character. -/
def app_norm_unit (u : String) : String :=
  ⟨(pyStripList u.data).filter (fun c => !pyIsSpace c)⟩

/-- Parse `\d+(?:\.\d+)?` at the head of the list: maximal digit run,
then an optional fractional part needing at least one digit.  Returns
the exact rational value of the decimal literal (Python reads it with
`float`) and the unconsumed rest. -/
def matchNumAt (cs : List Char) : Option (ℚ × List Char) :=
  let p := splitDigits cs
  if p.1 = [] then none
  else
    match p.2 with
    | '.' :: r2 =>
      let f := splitDigits r2
      if f.1 = [] then some ((digitsToNat p.1 : ℚ), p.2)
      else some ((digitsToNat p.1 : ℚ) + (digitsToNat f.1 : ℚ) / ((10 : ℚ) ^ f.1.length), f.2)
    | _ => some ((digitsToNat p.1 : ℚ), p.2)

/-- `re.search` for a pattern `\d+(?:\.\d+)?\s*UNIT`: leftmost position
where a decimal literal, optional whitespace and then `unitOk` match.
For this shape of pattern, maximal-munch at each successive start
position coincides with the regex backtracking semantics. -/
def searchNumThen (unitOk : List Char → Bool) : List Char → Option ℚ
  | [] => none
  | c :: cs =>
    match matchNumAt (c :: cs) with
    | some (v, rest) =>
      if unitOk (rest.dropWhile pyIsSpace) then some v
      else searchNumThen unitOk cs
    | none => searchNumThen unitOk cs

/-- `(ml|ｍｌ)` with `re.IGNORECASE` at the head. -/
def isMlAt : List Char → Bool
  | c1 :: c2 :: _ =>
    ((c1 = 'm' || c1 = 'M') && (c2 = 'l' || c2 = 'L')) ||
    ((c1 = 'ｍ' || c1 = 'Ｍ') && (c2 = 'ｌ' || c2 = 'Ｌ'))
  | _ => false

/-- `(l|ℓ|ｌ)` with `re.IGNORECASE` at the head. -/
def isLAt : List Char → Bool
  | c :: _ => c = 'l' || c = 'L' || c = 'ℓ' || c = 'ｌ' || c = 'Ｌ'
  | _ => false

/-- The per-unit volume (in liters) `convert_water_to_liters` reads from
the name/memo text: first an `ml` figure (divided by 1000), else an `L`
figure. -/
def waterVolL (text : List Char) : Option ℚ :=
  match searchNumThen isMlAt text with
  | some v => some (v / 1000)
  | none => searchNumThen isLAt text

/-- `re.search` for an integer pattern `(\d+)\s*SUFFIX` (used by the
`本入` and `入り` pack-count fallbacks). -/
def searchCountThen (unitOk : List Char → Bool) : List Char → Option Nat
  | [] => none
  | c :: cs =>
    let p := splitDigits (c :: cs)
    if p.1 ≠ [] ∧ unitOk (p.2.dropWhile pyIsSpace) then some (digitsToNat p.1)
    else searchCountThen unitOk cs

/-- Head test for a single literal character. -/
def headIs (ch : Char) : List Char → Bool
  | c :: _ => c = ch
  | [] => false

/-- Head test for two literal characters. -/
def headIs2 (a b : Char) : List Char → Bool
  | c :: d :: _ => c = a && d = b
  | _ => false

/-- `re.search(r"[×xX＊*]\s*(\d+)\s*本", text)`. -/
def searchPackX : List Char → Option Nat
  | [] => none
  | c :: cs =>
    if c = '×' || c = 'x' || c = 'X' || c = '＊' || c = '*' then
      let p := splitDigits (cs.dropWhile pyIsSpace)
      if p.1 ≠ [] ∧ headIs '本' (p.2.dropWhile pyIsSpace) then some (digitsToNat p.1)
      else searchPackX cs
    else searchPackX cs

/-- The pack count `convert_water_to_liters` reads from the text:
`×24本`-style first, then `24本入`, then `24入り`. -/
def packCount (text : List Char) : Option Nat :=
  match searchPackX text with
  | some n => some n
  | none =>
    match searchCountThen (headIs2 '本' '入') text with
    | some n => some n
    | none => searchCountThen (headIs2 '入' 'り') text

/-- `u = _norm_unit(unit).lower()` in `convert_water_to_liters`. -/
def waterUnitNorm (unit : String) : String :=
  pyLower (app_norm_unit unit)

/-- `text = f"{name} {memo}"` in the converters. -/
def waterText (name memo : String) : List Char :=
  (name ++ " " ++ memo).data

/-- `app.convert_water_to_liters`.  `if not vol_l:` and `if not count:`
are Python truthiness tests: they fail both when nothing was parsed and
when the parsed figure is zero. -/
def convert_water_to_liters (qty : ℚ) (unit name memo : String) :
    Except String ℚ :=
  let u := waterUnitNorm unit
  if (["", "l", "ℓ", "ｌ", "リットル"] : List String).contains u then .ok qty
  else if (["ml", "ｍｌ", "milliliter"] : List String).contains u then .ok (qty / 1000)
  else if (["m3", "㎥", "m^3", "立方メートル"] : List String).contains u then .ok (qty * 1000)
  else
    let text := waterText name memo
    let v := waterVolL text
    if (["本", "ぼん", "ボトル", "缶", "個"] : List String).contains u then
      match v with
      | some vl =>
        if vl = 0 then .error "水の単位が本/個ですが、品名/メモから容量(ml/L)が読めません"
        else .ok (qty * vl)
      | none => .error "水の単位が本/個ですが、品名/メモから容量(ml/L)が読めません"
    else if (["箱", "ケース", "case"] : List String).contains u then
      match v with
      | some vl =>
        if vl = 0 then .error "水の単位が箱/ケースですが、品名/メモから容量(ml/L)が読めません"
        else
          match packCount text with
          | some c =>
            if c = 0 then .error "箱/ケースですが、品名/メモから入数（例: ×24本 / 24本入）が読めません"
            else .ok (qty * (c : ℚ) * vl)
          | none => .error "箱/ケースですが、品名/メモから入数（例: ×24本 / 24本入）が読めません"
      | none => .error "水の単位が箱/ケースですが、品名/メモから容量(ml/L)が読めません"
    else .error ("水の単位 " ++ unit ++ " をL換算できません（推奨: L / ml / m3 / 本 / ケース）")

/-- `app.convert_food_to_meals`. -/
def convert_food_to_meals (qty : ℚ) (unit name memo : String) :
    Except String ℚ :=
  let u := app_norm_unit unit
  if (["", "食"] : List String).contains u then .ok qty
  else
    match searchCountThen (headIs '食') (name ++ " " ++ memo).data with
    | some per =>
      if (["箱", "袋", "ケース"] : List String).contains u then .ok (qty * (per : ℚ))
      else .error ("主食類の単位 " ++ unit ++ " を食に換算できません（推奨: 食 / 例: 50食 を品名に含める）")
    | none => .error ("主食類の単位 " ++ unit ++ " を食に換算できません（推奨: 食 / 例: 50食 を品名に含める）")

/-- `app.toilet_uses_from_unit`: `回`/`枚`/`袋`/blank count 1:1 as uses;
anything else (durable fixtures such as `基`/`台`) is not convertible. -/
def toilet_uses_from_unit (qty : ℚ) (unit : String) : Option ℚ :=
  let u := app_norm_unit unit
  if (["", "回"] : List String).contains u then some qty
  else if (["枚", "袋"] : List String).contains u then some qty
  else none

/-- `str(s.get("item_kind") or "stock").strip().lower()` in the
aggregation loop. -/
def itemKindOf (row : Row) : String :=
  pyLower (pyStrip (pyOrStr row.item_kind "stock"))

/-- What one persisted entry adds to `amounts[get_cat_key(category)]` in
the aggregation loop of `app.py`: capacity entries are skipped, the
three main categories go through their converters (conversion failures
are collected as unit issues and add nothing), everything else adds its
raw quantity. -/
def entryStockAmount (row : Row) : ℚ :=
  let ck := get_cat_key row.category
  let u := pyStrip row.unit
  if itemKindOf row = "capacity" then 0
  else if ck = "水・飲料" then
    match convert_water_to_liters row.qty (pyOrStr u "L") row.name row.memo with
    | .ok v => v
    | .error _ => 0
  else if ck = "主食類" then
    match convert_food_to_meals row.qty (pyOrStr u "食") row.name row.memo with
    | .ok v => v
    | .error _ => 0
  else if ck = "トイレ・衛生" then
    match toilet_uses_from_unit row.qty (pyOrStr u "回") with
    | some v => v
    | none => 0
  else row.qty

/-- The `amounts` aggregate of `app.py` for one category key. -/
def catAmount (es : List Row) (k : String) : ℚ :=
  es.foldl
    (fun acc row =>
      if get_cat_key row.category = k then acc + entryStockAmount row else acc)
    0

/-! ## Expiry buckets (`app.py`) -/

/-- `sum(daysInMonth)` over the months before `m`. -/
def daysBeforeMonth (y m : Nat) : Nat :=
  ((List.range (m - 1)).map (fun i => daysInMonth y (i + 1))).sum

/-- `date(y, m, d).toordinal()`: proleptic-Gregorian day number.  Dates
are represented by this ordinal throughout; comparison of `date` objects
and `timedelta(days=n)` addition correspond to `≤`/`+ n` on ordinals. -/
def toOrdinal (y m d : Nat) : Nat :=
  let py := y - 1
  365 * py + py / 4 - py / 100 + py / 400 + daysBeforeMonth y m + d

/-- `app.iso_to_date`, as the ordinal of the parsed date.  Modelled by
the regex fallback (the same `DATE_RE` pattern), which agrees with
`datetime.fromisoformat` on every ISO date the store writes. -/
def iso_to_date (s : String) : Option Nat :=
  let t := pyStrip s
  if t = "" then none
  else
    match searchDate t.data with
    | some (y, m, d) => if validYMD y m d then some (toOrdinal y m d) else none
    | none => none

/-- The three expiry-alert counters. -/
structure Buckets where
  expired : Nat
  soon30 : Nat
  soon90 : Nat
deriving DecidableEq

/-- `(s.get("due_type") or "none")` in the expiry loop. -/
def dueTypeEff (row : Row) : String :=
  pyOrStr row.due_type "none"

/-- One iteration of the expiry-alert loop of `app.py`: skip entries
without a due type or with an unparseable date; otherwise count into
exactly one of the mutually exclusive buckets. -/
def expiryStep (today : Nat) (b : Buckets) (row : Row) : Buckets :=
  if dueTypeEff row = "none" then b
  else
    match iso_to_date row.due_date with
    | none => b
    | some dt =>
      if dt < today then { b with expired := b.expired + 1 }
      else if dt ≤ today + 30 then { b with soon30 := b.soon30 + 1 }
      else if dt ≤ today + 90 then { b with soon90 := b.soon90 + 1 }
      else b

/-- The `expired_count` / `soon30_count` / `soon90_count` loop. -/
def expiryBuckets (today : Nat) (es : List Row) : Buckets :=
  es.foldl (expiryStep today) ⟨0, 0, 0⟩

/-! ## Concrete instances used by witnesses and counterexamples -/

/-- A concrete valid water record. -/
def recW : Record :=
  ⟨"水 2L", 2, "L", "水・飲料", "stock", "", "none", "", ""⟩

/-- A record with memo `memo-a`. -/
def recMemoA : Record :=
  ⟨"水", 1, "L", "水・飲料", "stock", "", "none", "", "memo-a"⟩

/-- The same canonical identity as `recMemoA`, but memo `memo-b`. -/
def recMemoB : Record :=
  ⟨"水", 1, "L", "水・飲料", "stock", "", "none", "", "memo-b"⟩

/-- A record that fails validation (negative quantity). -/
def recBad : Record :=
  ⟨"へんなもの", -1, "", "その他", "stock", "", "none", "", ""⟩

/-- A legacy row that coerces into a valid record. -/
def legRowGood : LegacyRow :=
  ⟨some "毛布", none, none, some 3, some "寝具・避難", some "", none, none,
    some "枚", none, none, none, none⟩

/-- A legacy row whose coercion fails validation: no name column at all,
so the coerced name is empty. -/
def legRowBad : LegacyRow :=
  ⟨none, none, none, some 5, some "その他", some "", none, none,
    some "", none, none, none, none⟩

/-- A record whose free-text category contains no canonical label. -/
def recFreeCat : Record :=
  ⟨"スポーツドリンク", 1, "", "drinks", "stock", "", "none", "", ""⟩

/-- A persisted capacity entry in the water category (a durable water
tank counted in units, not liters). -/
def rowCapW : Row :=
  ⟨1, "給水タンク", "給水タンク", 999, "基", "水・飲料", "capacity", "",
    "none", "", ""⟩

/-- A persisted 2-liter water row with a memo, rowid 1. -/
def rowA : Row :=
  ⟨1, "水", "水", 2, "L", "水・飲料", "stock", "", "none", "", "old"⟩

/-- A persisted tea row, rowid 2. -/
def rowB : Row :=
  ⟨2, "お茶", "お茶", 1, "L", "水・飲料", "stock", "", "none", "", ""⟩

/-- A two-row ledger. -/
def L10 : Ledger := ⟨[rowA, rowB], 3⟩

/-- An edit that renames `rowB` to collide with `rowA`'s canonical
identity, with an empty memo. -/
def rec10 : Record :=
  ⟨"水", 5, "L", "水・飲料", "stock", "", "none", "", ""⟩

/-- A persisted entry due 31 days after 2025-01-01. -/
def rowDue31 : Row :=
  ⟨2, "水", "水", 1, "L", "水・飲料", "stock", "", "expiry",
    "2025-02-01", ""⟩

/-- A persisted entry due exactly on 2025-01-01. -/
def rowDueToday : Row :=
  ⟨3, "水", "水", 1, "L", "水・飲料", "stock", "", "expiry",
    "2025-01-01", ""⟩

/-! ## General lemmas -/

theorem find?_decomp {α : Type} {p : α → Bool} {l : List α} {a : α}
    (h : l.find? p = some a) :
    ∃ l₁ l₂, l = l₁ ++ a :: l₂ ∧ (∀ x ∈ l₁, p x = false) ∧ p a = true := by
  induction l with
  | nil => simp at h
  | cons b l ih =>
    by_cases hb : p b
    · rw [List.find?_cons_of_pos _ hb] at h
      obtain rfl : b = a := by simpa using h
      exact ⟨[], l, rfl, by simp, hb⟩
    · rw [List.find?_cons_of_neg _ hb] at h
      obtain ⟨l₁, l₂, rfl, h1, h2⟩ := ih h
      refine ⟨b :: l₁, l₂, rfl, ?_, h2⟩
      intro x hx
      rcases List.mem_cons.mp hx with rfl | hx
      · exact Bool.eq_false_iff.mpr hb
      · exact h1 x hx

theorem find?_of_filter_eq_singleton {α : Type} {p : α → Bool} {l : List α}
    {a : α} (h : l.filter p = [a]) : l.find? p = some a := by
  induction l with
  | nil => simp at h
  | cons b l ih =>
    by_cases hb : p b
    · rw [List.filter_cons_of_pos hb] at h
      obtain ⟨rfl, -⟩ : b = a ∧ l.filter p = [] := by simpa using h
      rw [List.find?_cons_of_pos _ hb]
    · rw [List.filter_cons_of_neg hb] at h
      rw [List.find?_cons_of_neg _ hb]
      exact ih h

theorem mergeFn_key (r : Record) (row row2 : Row) :
    (mergeFn r row row2).key = row2.key := by
  unfold mergeFn; split <;> rfl

theorem mergeFn_id (r : Record) (row row2 : Row) :
    (mergeFn r row row2).id = row2.id := by
  unfold mergeFn; split <;> rfl

theorem mergeFn_of_ne (r : Record) (row row2 : Row) (h : row2.id ≠ row.id) :
    mergeFn r row row2 = row2 := by
  unfold mergeFn; exact if_neg h

theorem mergeFn_self (r : Record) (row : Row) :
    mergeFn r row row =
      { row with qty := row.qty + r.qty, memo := mergeMemo r row } := by
  unfold mergeFn; exact if_pos rfl

theorem newRow_key (r : Record) (i : Nat) : (newRow r i).key = recordKey r := rfl

theorem upsert_in_conn_merged {r : Record} {L : Ledger} {row : Row}
    (hname : ¬ normalize_name r.name = "") (hqty : ¬ r.qty < 0)
    (hf : L.rows.find? (fun x => decide (x.key = recordKey r)) = some row) :
    upsert_in_conn r L =
      .ok (.merged, row.id, { L with rows := L.rows.map (mergeFn r row) }) := by
  simp only [upsert_in_conn, if_neg hname, if_neg hqty, hf]

theorem upsert_in_conn_inserted {r : Record} {L : Ledger}
    (hname : ¬ normalize_name r.name = "") (hqty : ¬ r.qty < 0)
    (hf : L.rows.find? (fun x => decide (x.key = recordKey r)) = none) :
    upsert_in_conn r L =
      .ok (.inserted, L.nextId,
        ⟨L.rows ++ [newRow r L.nextId], L.nextId + 1⟩) := by
  simp only [upsert_in_conn, if_neg hname, if_neg hqty, hf]

theorem upsert_in_conn_error_of_invalid {r : Record} (L : Ledger)
    (h : ¬ validRecord r) : ∃ e, upsert_in_conn r L = .error e := by
  unfold validRecord at h
  push_neg at h
  by_cases hname : normalize_name r.name = ""
  · exact ⟨"name is empty", by simp only [upsert_in_conn, if_pos hname]⟩
  · have hqty : r.qty < 0 := h hname
    exact ⟨"qty must be >= 0",
      by simp only [upsert_in_conn, if_neg hname, if_pos hqty]⟩

theorem upsert_in_conn_ok_of_valid {r : Record} (L : Ledger)
    (h : validRecord r) : ∃ a i L2, upsert_in_conn r L = .ok (a, i, L2) := by
  have hname : ¬ normalize_name r.name = "" := h.1
  have hqty : ¬ r.qty < 0 := not_lt.mpr h.2
  cases hf : L.rows.find? (fun x => decide (x.key = recordKey r)) with
  | some row =>
    exact ⟨_, _, _, upsert_in_conn_merged hname hqty hf⟩
  | none =>
    exact ⟨_, _, _, upsert_in_conn_inserted hname hqty hf⟩

theorem upsertOk_merged {r : Record} {L : Ledger} {row : Row}
    (hname : ¬ normalize_name r.name = "") (hqty : ¬ r.qty < 0)
    (hf : L.rows.find? (fun x => decide (x.key = recordKey r)) = some row) :
    upsertOk r L = { L with rows := L.rows.map (mergeFn r row) } := by
  unfold upsertOk
  rw [upsert_in_conn_merged hname hqty hf]

theorem upsertOk_inserted {r : Record} {L : Ledger}
    (hname : ¬ normalize_name r.name = "") (hqty : ¬ r.qty < 0)
    (hf : L.rows.find? (fun x => decide (x.key = recordKey r)) = none) :
    upsertOk r L = ⟨L.rows ++ [newRow r L.nextId], L.nextId + 1⟩ := by
  unfold upsertOk
  rw [upsert_in_conn_inserted hname hqty hf]

theorem upsertOk_invalid {r : Record} {L : Ledger} (h : ¬ validRecord r) :
    upsertOk r L = L := by
  obtain ⟨e, he⟩ := upsert_in_conn_error_of_invalid L h
  unfold upsertOk
  rw [he]

theorem map_eq_self_of {α : Type} {f : α → α} {l : List α}
    (h : ∀ x ∈ l, f x = x) : l.map f = l := by
  induction l with
  | nil => rfl
  | cons a l ih =>
    rw [List.map_cons, h a (by simp), ih (fun x hx => h x (by simp [hx]))]

theorem WF_id_unique {L : Ledger} (hwf : WF L) {x y : Row}
    (hx : x ∈ L.rows) (hy : y ∈ L.rows) (hid : x.id = y.id) : x = y := by
  by_contra hne
  exact hwf.1.forall (fun a b hab => hab.symm) hx hy hne hid

theorem mergedRow_key (r : Record) (row : Row) :
    (mergedRow r row).key = row.key := rfl

theorem mergedRow_qty (r : Record) (row : Row) :
    (mergedRow r row).qty = row.qty + r.qty := rfl

/-- Structure of a merging upsert on a well-formed ledger: the ledger
decomposes around the unique first row carrying the record's identity,
and only that row changes (quantity summed, memo backfilled). -/
theorem upsertOk_merged_decomp {r : Record} {L : Ledger} {row : Row}
    (hr : validRecord r) (hwf : WF L)
    (hf : L.rows.find? (fun x => decide (x.key = recordKey r)) = some row) :
    ∃ l₁ l₂, L.rows = l₁ ++ row :: l₂ ∧
      (∀ x ∈ l₁, ¬ x.key = recordKey r) ∧ row.key = recordKey r ∧
      (upsertOk r L).rows = l₁ ++ mergedRow r row :: l₂ ∧
      (upsertOk r L).nextId = L.nextId := by
  obtain ⟨l₁, l₂, hL, h1, h2⟩ := find?_decomp hf
  have hkey : row.key = recordKey r := of_decide_eq_true h2
  have hrow_mem : row ∈ L.rows := by rw [hL]; simp
  have hids : ∀ x ∈ l₁ ++ l₂, x.id ≠ row.id := by
    intro x hx hid
    have hxmem : x ∈ L.rows := by
      rw [hL]; rcases List.mem_append.mp hx with h | h <;> simp [h]
    have hxr : x = row := WF_id_unique hwf hxmem hrow_mem hid
    subst hxr
    have hpw := hwf.1
    rw [hL] at hpw
    rcases List.mem_append.mp hx with h | h
    · exact (List.pairwise_append.mp hpw).2.2 x h x (by simp) rfl
    · exact (List.pairwise_cons.mp (List.pairwise_append.mp hpw).2.1).1 x h rfl
  have hO := upsertOk_merged (hr.1) (not_lt.mpr hr.2) hf
  refine ⟨l₁, l₂, hL, fun x hx => of_decide_eq_false (h1 x hx), hkey, ?_, ?_⟩
  · rw [hO, hL]
    simp only [List.map_append, List.map_cons, mergeFn_self]
    rw [map_eq_self_of (fun x hx =>
        mergeFn_of_ne r row x (hids x (List.mem_append.mpr (.inl hx)))),
      map_eq_self_of (fun x hx =>
        mergeFn_of_ne r row x (hids x (List.mem_append.mpr (.inr hx))))]
    rfl
  · rw [hO]

theorem WF_upsertOk {r : Record} {L : Ledger} (hr : validRecord r)
    (hwf : WF L) : WF (upsertOk r L) := by
  have hname : ¬ normalize_name r.name = "" := hr.1
  have hqty : ¬ r.qty < 0 := not_lt.mpr hr.2
  cases hf : L.rows.find? (fun x => decide (x.key = recordKey r)) with
  | some row =>
    rw [upsertOk_merged hname hqty hf]
    constructor
    · rw [List.pairwise_map]
      simp only [mergeFn_id]
      exact hwf.1
    · intro x hx
      obtain ⟨y, hy, rfl⟩ := List.mem_map.mp hx
      rw [mergeFn_id]
      exact hwf.2 y hy
  | none =>
    rw [upsertOk_inserted hname hqty hf]
    constructor
    · rw [List.pairwise_append]
      refine ⟨hwf.1, by simp, ?_⟩
      intro a ha b hb
      have : b = newRow r L.nextId := by simpa using hb
      subst this
      exact Nat.ne_of_lt (hwf.2 a ha)
    · intro x hx
      rcases List.mem_append.mp hx with h | h
      · exact Nat.lt_succ_of_lt (hwf.2 x h)
      · have : x = newRow r L.nextId := by simpa using h
        subst this
        exact Nat.lt_succ_self _

theorem keyQty_upsertOk {r : Record} {L : Ledger} (hr : validRecord r)
    (hwf : WF L) (k : Key) :
    keyQty (upsertOk r L) k =
      keyQty L k + (if k = recordKey r then r.qty else 0) := by
  have hname : ¬ normalize_name r.name = "" := hr.1
  have hqty : ¬ r.qty < 0 := not_lt.mpr hr.2
  cases hf : L.rows.find? (fun x => decide (x.key = recordKey r)) with
  | some row =>
    obtain ⟨l₁, l₂, hL, -, hkey, hrows, -⟩ := upsertOk_merged_decomp hr hwf hf
    unfold keyQty rowsWithKey
    rw [hrows, hL]
    by_cases hk : k = recordKey r
    · subst hk
      simp only [List.filter_append, List.filter_cons, mergedRow_key, hkey,
        decide_eq_true_eq, if_pos rfl, List.map_append, List.sum_append,
        List.map_cons, List.sum_cons, mergedRow_qty, if_pos rfl,
        eq_self_iff_true, if_true]
      ring
    · have hne : ¬ row.key = k := by rw [hkey]; exact fun h => hk h.symm
      have hne2 : ¬ (mergedRow r row).key = k := by rw [mergedRow_key]; exact hne
      simp only [List.filter_append, List.filter_cons, decide_eq_true_eq,
        if_neg hne, if_neg hne2, List.map_append, List.sum_append]
      simp [hk]
  | none =>
    rw [upsertOk_inserted hname hqty hf]
    unfold keyQty rowsWithKey
    simp only [List.filter_append, List.filter_cons, List.filter_nil,
      newRow_key, decide_eq_true_eq, List.map_append, List.sum_append]
    by_cases hk : k = recordKey r
    · rw [if_pos hk.symm, if_pos hk]
      simp [newRow]
    · rw [if_neg (fun h => hk h.symm), if_neg hk]
      simp

theorem find?_none_iff_filter_nil {α : Type} {p : α → Bool} {l : List α} :
    l.find? p = none ↔ l.filter p = [] := by
  induction l with
  | nil => simp
  | cons a l ih =>
    by_cases ha : p a
    · rw [List.find?_cons_of_pos _ ha, List.filter_cons_of_pos ha]
      simp
    · rw [List.find?_cons_of_neg _ ha, List.filter_cons_of_neg ha]
      exact ih

theorem rowsWithKey_upsertOk_of_nil {r : Record} {L : Ledger}
    (hr : validRecord r) (h0 : rowsWithKey L (recordKey r) = []) :
    rowsWithKey (upsertOk r L) (recordKey r) = [newRow r L.nextId] := by
  have hf : L.rows.find? (fun x => decide (x.key = recordKey r)) = none :=
    find?_none_iff_filter_nil.mpr h0
  rw [upsertOk_inserted hr.1 (not_lt.mpr hr.2) hf]
  unfold rowsWithKey at h0 ⊢
  simp only [List.filter_append, h0, List.nil_append, List.filter_cons,
    List.filter_nil, newRow_key, decide_eq_true_eq, eq_self_iff_true, if_true]

theorem filter_eq_nil_of {α : Type} {p : α → Bool} {l : List α}
    (h : ∀ x ∈ l, p x = false) : l.filter p = [] := by
  induction l with
  | nil => rfl
  | cons a t ih =>
    rw [List.filter_cons_of_neg (by simp [h a (by simp)])]
    exact ih (fun x hx => h x (by simp [hx]))

theorem rowsWithKey_upsertOk_of_singleton {r : Record} {L : Ledger} {row : Row}
    (hr : validRecord r) (hwf : WF L)
    (hfil : rowsWithKey L (recordKey r) = [row]) :
    rowsWithKey (upsertOk r L) (recordKey r) = [mergedRow r row] := by
  have hf : L.rows.find? (fun x => decide (x.key = recordKey r)) = some row :=
    find?_of_filter_eq_singleton hfil
  obtain ⟨l₁, l₂, hL, h1, hkey, hrows, -⟩ := upsertOk_merged_decomp hr hwf hf
  have hfl₁ : l₁.filter (fun x => decide (x.key = recordKey r)) = [] :=
    filter_eq_nil_of (fun x hx => decide_eq_false (h1 x hx))
  have hfl₂ : l₂.filter (fun x => decide (x.key = recordKey r)) = [] := by
    unfold rowsWithKey at hfil
    rw [hL] at hfil
    rw [List.filter_append, hfl₁, List.nil_append,
      List.filter_cons_of_pos (by simpa using hkey)] at hfil
    simpa using hfil
  unfold rowsWithKey
  rw [hrows, List.filter_append, hfl₁, List.nil_append,
    List.filter_cons_of_pos (by simp [mergedRow_key, hkey]), hfl₂]

theorem filter_map_comm {α : Type} (f : α → α) (p : α → Bool)
    (hp : ∀ x, p (f x) = p x) (l : List α) :
    (l.map f).filter p = (l.filter p).map f := by
  induction l with
  | nil => rfl
  | cons a t ih =>
    by_cases ha : p a
    · rw [List.map_cons, List.filter_cons_of_pos (by rw [hp]; exact ha),
        List.filter_cons_of_pos ha, List.map_cons, ih]
    · rw [List.map_cons, List.filter_cons_of_neg (by rw [hp]; exact ha),
        List.filter_cons_of_neg ha, ih]

theorem rowsWithKey_upsertOk_nil_iff {r : Record} {L : Ledger}
    (hr : validRecord r) (k : Key) :
    rowsWithKey (upsertOk r L) k = [] ↔
      rowsWithKey L k = [] ∧ ¬ k = recordKey r := by
  have hname : ¬ normalize_name r.name = "" := hr.1
  have hqty : ¬ r.qty < 0 := not_lt.mpr hr.2
  cases hf : L.rows.find? (fun x => decide (x.key = recordKey r)) with
  | some row =>
    have hkey : row.key = recordKey r := by
      have := List.find?_some hf
      exact of_decide_eq_true this
    have hmem : row ∈ L.rows := List.mem_of_find?_eq_some hf
    rw [upsertOk_merged hname hqty hf]
    unfold rowsWithKey
    show (L.rows.map (mergeFn r row)).filter _ = [] ↔ _
    rw [filter_map_comm _ _ (fun x => by rw [mergeFn_key]) L.rows]
    constructor
    · intro h
      have hnil : L.rows.filter (fun x => decide (x.key = k)) = [] := by
        cases hfe : L.rows.filter (fun x => decide (x.key = k)) with
        | nil => rfl
        | cons b t => rw [hfe] at h; simp at h
      refine ⟨hnil, fun hkk => ?_⟩
      have : row ∈ L.rows.filter (fun x => decide (x.key = k)) :=
        List.mem_filter.mpr ⟨hmem, by rw [hkey, ← hkk]; simp⟩
      rw [hnil] at this
      simp at this
    · rintro ⟨h, -⟩
      rw [h]
      rfl
  | none =>
    rw [upsertOk_inserted hname hqty hf]
    unfold rowsWithKey
    show (L.rows ++ [newRow r L.nextId]).filter _ = [] ↔ _
    rw [List.filter_append]
    constructor
    · intro h
      obtain ⟨h1, h2⟩ := List.append_eq_nil.mp h
      refine ⟨h1, fun hkk => ?_⟩
      rw [List.filter_cons_of_pos (by rw [newRow_key, ← hkk]; simp)] at h2
      simp at h2
    · rintro ⟨h1, h2⟩
      rw [h1, List.nil_append,
        List.filter_cons_of_neg (by
          simp only [newRow_key, decide_eq_true_eq]
          exact fun hh => h2 hh.symm)]
      rfl

theorem length_upsertOk {r : Record} {L : Ledger} (hr : validRecord r) :
    (upsertOk r L).rows.length =
      L.rows.length +
        (if rowsWithKey L (recordKey r) = [] then 1 else 0) := by
  have hname : ¬ normalize_name r.name = "" := hr.1
  have hqty : ¬ r.qty < 0 := not_lt.mpr hr.2
  cases hf : L.rows.find? (fun x => decide (x.key = recordKey r)) with
  | some row =>
    have hne : ¬ rowsWithKey L (recordKey r) = [] := by
      intro h
      rw [find?_none_iff_filter_nil.mpr h] at hf
      exact Option.noConfusion hf
    rw [upsertOk_merged hname hqty hf]
    simp [hne]
  | none =>
    have hnil : rowsWithKey L (recordKey r) = [] :=
      find?_none_iff_filter_nil.mp hf
    rw [upsertOk_inserted hname hqty hf]
    simp [hnil]

theorem applyTimes_qty {r : Record} (hr : validRecord r) :
    ∀ (N : Nat) {L : Ledger} {row : Row}, WF L →
      rowsWithKey L (recordKey r) = [row] →
      ∃ row2 : Row, rowsWithKey (applyTimes r N L) (recordKey r) = [row2] ∧
        row2.qty = row.qty + N * r.qty := by
  intro N
  induction N with
  | zero =>
    intro L row hwf hfil
    exact ⟨row, hfil, by simp⟩
  | succ n ih =>
    intro L row hwf hfil
    have hstep := rowsWithKey_upsertOk_of_singleton hr hwf hfil
    have hwf2 := WF_upsertOk hr hwf
    obtain ⟨row2, h2, hq⟩ := ih hwf2 hstep
    refine ⟨row2, h2, ?_⟩
    rw [hq, mergedRow_qty]
    push_cast
    ring

theorem bulkGo_nil (atomic : Bool) (L0 : Ledger) (idx ins mer : Nat)
    (errs : List BulkError) (cur : Ledger) :
    bulkGo atomic L0 [] idx ins mer errs cur = (⟨ins, mer, errs, atomic⟩, cur) :=
  rfl

theorem bulkGo_cons_ok {it : Record} {cur : Ledger} {a : UpsertAction}
    {i : Nat} {L2 : Ledger} (atomic : Bool) (L0 : Ledger)
    (rest : List Record) (idx ins mer : Nat) (errs : List BulkError)
    (hu : upsert_in_conn it cur = .ok (a, i, L2)) :
    bulkGo atomic L0 (it :: rest) idx ins mer errs cur =
      if a = .inserted then
        bulkGo atomic L0 rest (idx + 1) (ins + 1) mer errs L2
      else bulkGo atomic L0 rest (idx + 1) ins (mer + 1) errs L2 := by
  simp only [bulkGo, hu]

theorem bulkGo_cons_error {it : Record} {cur : Ledger} {e : String}
    (atomic : Bool) (L0 : Ledger) (rest : List Record) (idx ins mer : Nat)
    (errs : List BulkError) (hu : upsert_in_conn it cur = .error e) :
    bulkGo atomic L0 (it :: rest) idx ins mer errs cur =
      if atomic then (⟨0, 0, errs ++ [⟨idx, e⟩], true⟩, L0)
      else bulkGo atomic L0 rest (idx + 1) ins mer (errs ++ [⟨idx, e⟩]) cur := by
  simp only [bulkGo, hu]

theorem bulkGo_false_ledger (items : List Record) :
    ∀ (L0 cur : Ledger) (idx ins mer : Nat) (errs : List BulkError),
      (bulkGo false L0 items idx ins mer errs cur).2 =
        items.foldl (fun l it => upsertOk it l) cur := by
  induction items with
  | nil => intros; rfl
  | cons it rest ih =>
    intro L0 cur idx ins mer errs
    have hfold : (it :: rest).foldl (fun l it => upsertOk it l) cur =
        rest.foldl (fun l it => upsertOk it l) (upsertOk it cur) := rfl
    rw [hfold]
    cases hu : upsert_in_conn it cur with
    | ok v =>
      obtain ⟨a, i, L2⟩ := v
      have hOk : upsertOk it cur = L2 := by unfold upsertOk; rw [hu]
      rw [bulkGo_cons_ok false L0 rest idx ins mer errs hu, hOk]
      cases a
      · rw [if_pos rfl, ih]
      · rw [if_neg (by decide), ih]
    | error e =>
      have hOk : upsertOk it cur = cur := by unfold upsertOk; rw [hu]
      rw [bulkGo_cons_error false L0 rest idx ins mer errs hu,
        if_neg (by decide), ih, hOk]

theorem bulkGo_false_stats (items : List Record) :
    ∀ (L0 cur : Ledger) (idx ins mer : Nat) (errs : List BulkError),
      (bulkGo false L0 items idx ins mer errs cur).1.errors.length =
        errs.length +
          (items.filter (fun it => decide (¬ validRecord it))).length ∧
      (bulkGo false L0 items idx ins mer errs cur).1.inserted +
          (bulkGo false L0 items idx ins mer errs cur).1.merged =
        ins + mer +
          (items.filter (fun it => decide (validRecord it))).length := by
  induction items with
  | nil =>
    intros
    rw [bulkGo_nil]
    exact ⟨by simp, by simp⟩
  | cons it rest ih =>
    intro L0 cur idx ins mer errs
    by_cases hv : validRecord it
    · obtain ⟨a, i, L2, hu⟩ := upsert_in_conn_ok_of_valid cur hv
      have hfv : (it :: rest).filter (fun it => decide (validRecord it)) =
          it :: rest.filter (fun it => decide (validRecord it)) :=
        List.filter_cons_of_pos (by simpa using hv)
      have hfe : (it :: rest).filter (fun it => decide (¬ validRecord it)) =
          rest.filter (fun it => decide (¬ validRecord it)) :=
        List.filter_cons_of_neg (by simpa using hv)
      rw [bulkGo_cons_ok false L0 rest idx ins mer errs hu, hfv, hfe]
      cases a
      · rw [if_pos rfl]
        obtain ⟨e1, e2⟩ := ih L0 L2 (idx + 1) (ins + 1) mer errs
        exact ⟨e1, by rw [e2]; simp; omega⟩
      · rw [if_neg (by decide)]
        obtain ⟨e1, e2⟩ := ih L0 L2 (idx + 1) ins (mer + 1) errs
        exact ⟨e1, by rw [e2]; simp; omega⟩
    · obtain ⟨e, hu⟩ := upsert_in_conn_error_of_invalid cur hv
      have hfv : (it :: rest).filter (fun it => decide (validRecord it)) =
          rest.filter (fun it => decide (validRecord it)) :=
        List.filter_cons_of_neg (by simpa using hv)
      have hfe : (it :: rest).filter (fun it => decide (¬ validRecord it)) =
          it :: rest.filter (fun it => decide (¬ validRecord it)) :=
        List.filter_cons_of_pos (by simpa using hv)
      rw [bulkGo_cons_error false L0 rest idx ins mer errs hu,
        if_neg (by decide), hfv, hfe]
      obtain ⟨e1, e2⟩ := ih L0 cur (idx + 1) ins mer (errs ++ [⟨idx, e⟩])
      exact ⟨by rw [e1]; simp; omega, e2⟩

theorem bulkGo_true_rollback (items : List Record) :
    ∀ (L0 cur : Ledger) (idx ins mer : Nat) (errs : List BulkError),
      (∃ it ∈ items, ¬ validRecord it) →
        (bulkGo true L0 items idx ins mer errs cur).2 = L0 ∧
        (bulkGo true L0 items idx ins mer errs cur).1.inserted = 0 ∧
        (bulkGo true L0 items idx ins mer errs cur).1.merged = 0 ∧
        (bulkGo true L0 items idx ins mer errs cur).1.errors ≠ [] ∧
        (bulkGo true L0 items idx ins mer errs cur).1.atomic = true := by
  induction items with
  | nil =>
    intro _ _ _ _ _ _ h
    obtain ⟨it, hmem, -⟩ := h
    simp at hmem
  | cons it rest ih =>
    intro L0 cur idx ins mer errs h
    by_cases hv : validRecord it
    · have hrest : ∃ x ∈ rest, ¬ validRecord x := by
        obtain ⟨x, hmem, hx⟩ := h
        rcases List.mem_cons.mp hmem with rfl | hmem
        · exact absurd hv hx
        · exact ⟨x, hmem, hx⟩
      obtain ⟨a, i, L2, hu⟩ := upsert_in_conn_ok_of_valid cur hv
      rw [bulkGo_cons_ok true L0 rest idx ins mer errs hu]
      cases a
      · rw [if_pos rfl]
        exact ih L0 L2 (idx + 1) (ins + 1) mer errs hrest
      · rw [if_neg (by decide)]
        exact ih L0 L2 (idx + 1) ins (mer + 1) errs hrest
    · obtain ⟨e, hu⟩ := upsert_in_conn_error_of_invalid cur hv
      rw [bulkGo_cons_error true L0 rest idx ins mer errs hu, if_pos rfl]
      exact ⟨rfl, rfl, rfl, by simp, rfl⟩

theorem bulkGo_all_valid (atomic : Bool) (items : List Record) :
    ∀ (L0 cur : Ledger) (idx ins mer : Nat) (errs : List BulkError),
      (∀ it ∈ items, validRecord it) →
        (bulkGo atomic L0 items idx ins mer errs cur).2 =
          items.foldl (fun l it => upsertOk it l) cur := by
  induction items with
  | nil => intros; rfl
  | cons it rest ih =>
    intro L0 cur idx ins mer errs h
    have hv : validRecord it := h it (by simp)
    obtain ⟨a, i, L2, hu⟩ := upsert_in_conn_ok_of_valid cur hv
    have hOk : upsertOk it cur = L2 := by unfold upsertOk; rw [hu]
    have hfold : (it :: rest).foldl (fun l it => upsertOk it l) cur =
        rest.foldl (fun l it => upsertOk it l) (upsertOk it cur) := rfl
    rw [hfold, hOk, bulkGo_cons_ok atomic L0 rest idx ins mer errs hu]
    cases a
    · rw [if_pos rfl]
      exact ih L0 L2 (idx + 1) (ins + 1) mer errs (fun x hx => h x (by simp [hx]))
    · rw [if_neg (by decide)]
      exact ih L0 L2 (idx + 1) ins (mer + 1) errs (fun x hx => h x (by simp [hx]))

/-! ## Claim theorems -/

/-- C1: for every valid input record `r` (non-empty name after
normalization, `qty ≥ 0`) and every `N ≥ 1`, applying merge-upsert with
`r` `N` times to a ledger initially containing no row with `r`'s
canonical identity yields exactly one row with that identity, whose
quantity equals `N` times `r`'s quantity; repeated merge-upserts of the
same record never create a second row for that identity. -/
theorem upsert_idempotent_merge (r : Record) (hr : validRecord r)
    (L : Ledger) (hwf : WF L) (h0 : rowsWithKey L (recordKey r) = [])
    (N : Nat) (hN : 1 ≤ N) :
    ∃ row : Row, rowsWithKey (applyTimes r N L) (recordKey r) = [row] ∧
      row.qty = (N : ℚ) * r.qty := by
  obtain ⟨n, rfl⟩ : ∃ n, N = n + 1 := ⟨N - 1, (Nat.succ_pred_eq_of_pos hN).symm⟩
  have h1 := rowsWithKey_upsertOk_of_nil hr h0
  have hwf1 := WF_upsertOk hr hwf
  obtain ⟨row2, h2, hq⟩ := applyTimes_qty hr n hwf1 h1
  refine ⟨row2, h2, ?_⟩
  rw [hq]
  show r.qty + (n : ℚ) * r.qty = _
  push_cast
  ring

/-- Witness for C1 at a concrete record: three merge-upserts of a 2-liter
water record into an empty ledger leave exactly one row of quantity 6. -/
theorem upsert_idempotent_merge_witness :
    validRecord recW ∧ WF emptyLedger ∧
      rowsWithKey emptyLedger (recordKey recW) = [] ∧
      ∃ row : Row,
        rowsWithKey (applyTimes recW 3 emptyLedger) (recordKey recW) = [row] ∧
        row.qty = (3 : ℚ) * recW.qty := by
  have hv : validRecord recW := by constructor <;> decide
  have hwf : WF emptyLedger := by
    constructor
    · exact List.Pairwise.nil
    · intro row h
      simp [emptyLedger] at h
  exact ⟨hv, hwf, rfl,
    upsert_idempotent_merge recW hv emptyLedger hwf rfl 3 (by decide)⟩

/-- Counterexample to C2 as stated: merging two records of the same
canonical identity whose memos are both non-empty is order-dependent —
the surviving row keeps the memo of whichever record came first, so the
two orders do not yield the same final row set. -/
theorem merge_upsert_order_rowset_counterexample :
    (upsertOk recMemoB (upsertOk recMemoA emptyLedger)).rows.map Row.memo =
      ["memo-a"] ∧
    (upsertOk recMemoA (upsertOk recMemoB emptyLedger)).rows.map Row.memo =
      ["memo-b"] ∧
    (upsertOk recMemoB (upsertOk recMemoA emptyLedger)).rows ≠
      (upsertOk recMemoA (upsertOk recMemoB emptyLedger)).rows := by
  have ha : (upsertOk recMemoB (upsertOk recMemoA emptyLedger)).rows.map
      Row.memo = ["memo-a"] := by decide
  have hb : (upsertOk recMemoA (upsertOk recMemoB emptyLedger)).rows.map
      Row.memo = ["memo-b"] := by decide
  refine ⟨ha, hb, fun h => ?_⟩
  have hmap := congrArg (List.map Row.memo) h
  rw [ha, hb] at hmap
  exact absurd hmap (by decide)

/-- C2 (amended): for every pair of valid records and every well-formed
initial ledger, the two merge orders agree on the quantity stored under
every canonical identity, on which identities are present, and on the
number of rows; only non-identity row fields (the kept memo, the display
name) may depend on the order. -/
theorem merge_upsert_order_qty_independent (R1 R2 : Record)
    (h1 : validRecord R1) (h2 : validRecord R2) (L : Ledger) (hwf : WF L) :
    (∀ k : Key,
      keyQty (upsertOk R2 (upsertOk R1 L)) k =
        keyQty (upsertOk R1 (upsertOk R2 L)) k) ∧
    (∀ k : Key,
      rowsWithKey (upsertOk R2 (upsertOk R1 L)) k = [] ↔
        rowsWithKey (upsertOk R1 (upsertOk R2 L)) k = []) ∧
    (upsertOk R2 (upsertOk R1 L)).rows.length =
      (upsertOk R1 (upsertOk R2 L)).rows.length := by
  refine ⟨?_, ?_, ?_⟩
  · intro k
    rw [keyQty_upsertOk h2 (WF_upsertOk h1 hwf) k, keyQty_upsertOk h1 hwf k,
      keyQty_upsertOk h1 (WF_upsertOk h2 hwf) k, keyQty_upsertOk h2 hwf k]
    ring
  · intro k
    rw [rowsWithKey_upsertOk_nil_iff h2 k, rowsWithKey_upsertOk_nil_iff h1 k,
      rowsWithKey_upsertOk_nil_iff h1 k, rowsWithKey_upsertOk_nil_iff h2 k]
    tauto
  · rw [length_upsertOk h2, length_upsertOk h1, length_upsertOk h1,
      length_upsertOk h2,
      if_congr (rowsWithKey_upsertOk_nil_iff h1 (recordKey R2)) rfl rfl,
      if_congr (rowsWithKey_upsertOk_nil_iff h2 (recordKey R1)) rfl rfl]
    by_cases hk : recordKey R1 = recordKey R2
    · rw [hk]
    · have hk' : ¬ recordKey R2 = recordKey R1 := fun h => hk h.symm
      by_cases p1 : rowsWithKey L (recordKey R1) = [] <;>
        by_cases p2 : rowsWithKey L (recordKey R2) = [] <;>
          simp [hk, hk', p1, p2]

/-- Witness for the amended C2 at concrete records: both orders agree on
the quantity under the shared identity and on the row count. -/
theorem merge_upsert_order_qty_independent_witness :
    validRecord recMemoA ∧ validRecord recMemoB ∧ WF emptyLedger ∧
    keyQty (upsertOk recMemoB (upsertOk recMemoA emptyLedger))
        (recordKey recMemoA) =
      keyQty (upsertOk recMemoA (upsertOk recMemoB emptyLedger))
        (recordKey recMemoA) ∧
    (upsertOk recMemoB (upsertOk recMemoA emptyLedger)).rows.length =
      (upsertOk recMemoA (upsertOk recMemoB emptyLedger)).rows.length := by
  have h1 : validRecord recMemoA := by constructor <;> decide
  have h2 : validRecord recMemoB := by constructor <;> decide
  have hwf : WF emptyLedger := by
    constructor
    · exact List.Pairwise.nil
    · intro row h
      simp [emptyLedger] at h
  obtain ⟨hq, -, hl⟩ :=
    merge_upsert_order_qty_independent recMemoA recMemoB h1 h2 emptyLedger hwf
  exact ⟨h1, h2, hwf, hq _, hl⟩

/-- Counterexample to C3 as stated: `bulk_upsert`'s signature defaults to
`atomic=True`, so by default a batch containing one invalid record is
rolled back entirely — the valid first record is *not* applied, the
counts are zeroed, and the ledger is returned unchanged, contrary to the
claimed partial-success default. -/
theorem bulk_upsert_default_counterexample :
    (bulk_upsert_default [recW, recBad] emptyLedger).2 = emptyLedger ∧
    (bulk_upsert_default [recW, recBad] emptyLedger).1 =
      ⟨0, 0, [⟨1, "qty must be >= 0"⟩], true⟩ ∧
    (upsertOk recW emptyLedger).rows ≠ [] := by
  refine ⟨by decide, by decide, by decide⟩

/-- C3 (amended): `bulk_upsert` is partial-success only when the caller
passes `atomic=False`: then every valid record of the batch is applied
in order, each invalid record is reported in the per-record error list,
and the inserted/merged counts cover exactly the valid records.  Under
`atomic=True` — which is the signature's default — any single invalid
record rolls the whole batch back to the initial ledger with zeroed
counts, while an all-valid batch is applied normally. -/
theorem bulk_upsert_partial_success (items : List Record) (L : Ledger) :
    ((bulk_upsert items false L).2 =
        items.foldl (fun l it => upsertOk it l) L) ∧
    ((bulk_upsert items false L).1.errors.length =
        (items.filter (fun it => decide (¬ validRecord it))).length) ∧
    ((bulk_upsert items false L).1.inserted +
        (bulk_upsert items false L).1.merged =
        (items.filter (fun it => decide (validRecord it))).length) ∧
    ((∃ it ∈ items, ¬ validRecord it) →
      (bulk_upsert items true L).2 = L ∧
      (bulk_upsert items true L).1.inserted = 0 ∧
      (bulk_upsert items true L).1.merged = 0 ∧
      (bulk_upsert items true L).1.errors ≠ []) ∧
    ((∀ it ∈ items, validRecord it) →
      (bulk_upsert items true L).2 =
        items.foldl (fun l it => upsertOk it l) L) ∧
    bulk_upsert_default items L = bulk_upsert items true L := by
  obtain ⟨e1, e2⟩ := bulkGo_false_stats items L L 0 0 0 []
  refine ⟨bulkGo_false_ledger items L L 0 0 0 [], by simpa using e1,
    by simpa using e2, ?_, ?_, rfl⟩
  · intro h
    obtain ⟨r1, r2, r3, r4, -⟩ := bulkGo_true_rollback items L L 0 0 0 [] h
    exact ⟨r1, r2, r3, r4⟩
  · intro h
    exact bulkGo_all_valid true items L L 0 0 0 [] h

/-- Witness for the amended C3 at a concrete batch: with `atomic=False`
the valid record is applied and the invalid one only reported, while the
default atomic mode rolls the same batch back. -/
theorem bulk_upsert_partial_success_witness :
    ((bulk_upsert [recW, recBad] false emptyLedger).2 =
        [recW, recBad].foldl (fun l it => upsertOk it l) emptyLedger) ∧
    ((bulk_upsert [recW, recBad] false emptyLedger).1.errors.length = 1) ∧
    ((bulk_upsert [recW, recBad] true emptyLedger).2 = emptyLedger) := by
  have h := bulk_upsert_partial_success [recW, recBad] emptyLedger
  refine ⟨h.1, ?_, (h.2.2.2.1 ⟨recBad, by simp, by decide⟩).1⟩
  rw [h.2.1]
  decide

/-- A replay with at least one uncoercible legacy row must fail. -/
theorem replayLegacy_error (rows : List LegacyRow) :
    ∀ L : Ledger, (∃ lr ∈ rows, ¬ validRecord (legacyToRecord lr)) →
      ∃ e, replayLegacy rows L = .error e := by
  induction rows with
  | nil =>
    intro L h
    obtain ⟨lr, hm, -⟩ := h
    simp at hm
  | cons lr rest ih =>
    intro L h
    by_cases hv : validRecord (legacyToRecord lr)
    · have hrest : ∃ x ∈ rest, ¬ validRecord (legacyToRecord x) := by
        obtain ⟨x, hmem, hx⟩ := h
        rcases List.mem_cons.mp hmem with rfl | hmem
        · exact absurd hv hx
        · exact ⟨x, hmem, hx⟩
      obtain ⟨a, i, L2, hu⟩ := upsert_in_conn_ok_of_valid L hv
      obtain ⟨e, he⟩ := ih L2 hrest
      exact ⟨e, by simp only [replayLegacy, hu]; exact he⟩
    · obtain ⟨e, hu⟩ := upsert_in_conn_error_of_invalid L hv
      exact ⟨e, by simp only [replayLegacy, hu]⟩

/-- C4: during the startup schema migration, if any legacy row fails to
be coerced into a valid record during replay (for example an empty name
or a negative quantity raising a validation error), the entire
migration is rolled back, the pre-migration legacy table is restored as
the active `stocks` table, and the error is surfaced; the migration
never yields a (half-)migrated ledger. -/
theorem init_db_migration_rollback (legacy : List LegacyRow)
    (h : ∃ lr ∈ legacy, ¬ validRecord (legacyToRecord lr)) :
    ∃ e, init_db_migrate legacy = .rolledBack e legacy ∧
      ∀ (L : Ledger) (kept : List LegacyRow),
        init_db_migrate legacy ≠ .migrated L kept := by
  obtain ⟨e, he⟩ := replayLegacy_error legacy emptyLedger h
  have hmig : init_db_migrate legacy = .rolledBack e legacy := by
    unfold init_db_migrate
    rw [he]
  refine ⟨e, hmig, fun L kept hcontra => ?_⟩
  rw [hmig] at hcontra
  exact MigResult.noConfusion hcontra

/-- Witness for C4: a two-row legacy table whose second row has no name
column is rolled back in full, with the legacy rows staying active. -/
theorem init_db_migration_rollback_witness :
    ¬ validRecord (legacyToRecord legRowBad) ∧
    validRecord (legacyToRecord legRowGood) ∧
    ∃ e, init_db_migrate [legRowGood, legRowBad] =
      .rolledBack e [legRowGood, legRowBad] := by
  have hbad : ¬ validRecord (legacyToRecord legRowBad) := by decide
  obtain ⟨e, he, -⟩ :=
    init_db_migration_rollback [legRowGood, legRowBad]
      ⟨legRowBad, by simp, hbad⟩
  exact ⟨hbad, by constructor <;> decide, e, he⟩

theorem catAmount_shift (k : String) (es : List Row) :
    ∀ a : ℚ,
      es.foldl
        (fun acc row =>
          if get_cat_key row.category = k then acc + entryStockAmount row
          else acc) a =
      a + catAmount es k := by
  induction es with
  | nil => intro a; simp [catAmount]
  | cons row rest ih =>
    intro a
    have hstep : ∀ b : ℚ,
        (if get_cat_key row.category = k then b + entryStockAmount row
          else b) =
        b + (if get_cat_key row.category = k then entryStockAmount row
          else 0) := by
      intro b
      split <;> simp
    show rest.foldl _ (if get_cat_key row.category = k
        then a + entryStockAmount row else a) = _
    rw [ih, hstep a]
    have : catAmount (row :: rest) k =
        rest.foldl
          (fun acc row =>
            if get_cat_key row.category = k then acc + entryStockAmount row
            else acc)
          (if get_cat_key row.category = k then 0 + entryStockAmount row
            else 0) := rfl
    rw [this, ih, hstep 0]
    ring

theorem entryStockAmount_capacity {row : Row}
    (h : itemKindOf row = "capacity") : entryStockAmount row = 0 := by
  unfold entryStockAmount
  rw [if_pos h]

/-- C5: the per-category stock aggregation never adds the quantity of an
entry whose normalized `item_kind` is `capacity` into any category
total: prepending such an entry leaves every `amounts` bucket unchanged,
whatever its quantity and unit, and its own contribution is zero. -/
theorem capacity_excluded_from_amounts (row : Row)
    (h : itemKindOf row = "capacity") (es : List Row) (k : String) :
    catAmount (row :: es) k = catAmount es k ∧ entryStockAmount row = 0 := by
  have hz := entryStockAmount_capacity h
  constructor
  · show es.foldl _ (if get_cat_key row.category = k
        then 0 + entryStockAmount row else 0) = _
    rw [catAmount_shift, hz]
    split <;> simp
  · exact hz

/-- Witness for C5: a 999-unit capacity water tank contributes nothing
to the water liters total. -/
theorem capacity_excluded_from_amounts_witness :
    itemKindOf rowCapW = "capacity" ∧
    catAmount [rowCapW] "水・飲料" = 0 := by
  have h := capacity_excluded_from_amounts rowCapW (by decide) [] "水・飲料"
  exact ⟨by decide, h.1⟩

theorem expiryStep_components (t : Nat) (b : Buckets) (row : Row) :
    (expiryStep t b row).expired =
      b.expired + (expiryStep t ⟨0, 0, 0⟩ row).expired ∧
    (expiryStep t b row).soon30 =
      b.soon30 + (expiryStep t ⟨0, 0, 0⟩ row).soon30 ∧
    (expiryStep t b row).soon90 =
      b.soon90 + (expiryStep t ⟨0, 0, 0⟩ row).soon90 := by
  unfold expiryStep
  by_cases h1 : dueTypeEff row = "none"
  · simp [h1]
  · rw [if_neg h1, if_neg h1]
    cases hdt : iso_to_date row.due_date with
    | none => simp
    | some dt =>
      dsimp only
      split_ifs <;> simp

theorem foldl_expiry_shift (t : Nat) (es : List Row) :
    ∀ b : Buckets,
      es.foldl (expiryStep t) b =
        ⟨b.expired + (expiryBuckets t es).expired,
         b.soon30 + (expiryBuckets t es).soon30,
         b.soon90 + (expiryBuckets t es).soon90⟩ := by
  induction es with
  | nil =>
    intro b
    obtain ⟨e, s, n⟩ := b
    simp [expiryBuckets]
  | cons row rest ih =>
    intro b
    have hL : (row :: rest).foldl (expiryStep t) b =
        rest.foldl (expiryStep t) (expiryStep t b row) := rfl
    have hR : expiryBuckets t (row :: rest) =
        rest.foldl (expiryStep t) (expiryStep t ⟨0, 0, 0⟩ row) := rfl
    obtain ⟨c1, c2, c3⟩ := expiryStep_components t b row
    rw [hL, hR, ih (expiryStep t b row), ih (expiryStep t ⟨0, 0, 0⟩ row),
      c1, c2, c3]
    simp [Nat.add_assoc]

theorem expiryBuckets_cons (t : Nat) (row : Row) (es : List Row) :
    expiryBuckets t (row :: es) =
      ⟨(expiryStep t ⟨0, 0, 0⟩ row).expired + (expiryBuckets t es).expired,
       (expiryStep t ⟨0, 0, 0⟩ row).soon30 + (expiryBuckets t es).soon30,
       (expiryStep t ⟨0, 0, 0⟩ row).soon90 + (expiryBuckets t es).soon90⟩ := by
  show es.foldl (expiryStep t) (expiryStep t ⟨0, 0, 0⟩ row) = _
  rw [foldl_expiry_shift]

/-- C6: the expiry-bucket counters consider only entries with a due type
other than `none` and a parseable due date; a date strictly before today
counts as expired, a date from today through today + 30 counts (only) in
the 30-day bucket — so an entry due exactly today is *not* expired — a
date from today + 31 through today + 90 counts (only) in the 90-day
bucket, and later dates count nowhere: the buckets are mutually
exclusive. -/
theorem expiry_bucketing (today : Nat) (row : Row) (es : List Row) :
    ((dueTypeEff row = "none" ∨ iso_to_date row.due_date = none) →
      expiryBuckets today (row :: es) = expiryBuckets today es) ∧
    (∀ dt, dueTypeEff row ≠ "none" → iso_to_date row.due_date = some dt →
      (dt < today →
        expiryBuckets today (row :: es) =
          ⟨(expiryBuckets today es).expired + 1,
           (expiryBuckets today es).soon30,
           (expiryBuckets today es).soon90⟩) ∧
      (today ≤ dt → dt ≤ today + 30 →
        expiryBuckets today (row :: es) =
          ⟨(expiryBuckets today es).expired,
           (expiryBuckets today es).soon30 + 1,
           (expiryBuckets today es).soon90⟩) ∧
      (today + 30 < dt → dt ≤ today + 90 →
        expiryBuckets today (row :: es) =
          ⟨(expiryBuckets today es).expired,
           (expiryBuckets today es).soon30,
           (expiryBuckets today es).soon90 + 1⟩) ∧
      (today + 90 < dt →
        expiryBuckets today (row :: es) = expiryBuckets today es)) := by
  have hcons := expiryBuckets_cons today row es
  constructor
  · intro h
    have hstep : expiryStep today ⟨0, 0, 0⟩ row = ⟨0, 0, 0⟩ := by
      unfold expiryStep
      rcases h with h | h
      · rw [if_pos h]
      · by_cases h1 : dueTypeEff row = "none"
        · rw [if_pos h1]
        · rw [if_neg h1, h]
    rw [hcons, hstep]
    obtain ⟨e, s, n⟩ := expiryBuckets today es
    simp
  · intro dt h1 h2
    refine ⟨?_, ?_, ?_, ?_⟩
    · intro hlt
      have hstep : expiryStep today ⟨0, 0, 0⟩ row = ⟨1, 0, 0⟩ := by
        unfold expiryStep
        rw [if_neg h1, h2]
        simp [hlt]
      rw [hcons, hstep]
      obtain ⟨e, s, n⟩ := expiryBuckets today es
      simp [Nat.add_comm]
    · intro hge hle
      have hstep : expiryStep today ⟨0, 0, 0⟩ row = ⟨0, 1, 0⟩ := by
        unfold expiryStep
        rw [if_neg h1, h2]
        simp [not_lt.mpr hge, hle]
      rw [hcons, hstep]
      obtain ⟨e, s, n⟩ := expiryBuckets today es
      simp [Nat.add_comm]
    · intro hgt hle
      have hstep : expiryStep today ⟨0, 0, 0⟩ row = ⟨0, 0, 1⟩ := by
        unfold expiryStep
        rw [if_neg h1, h2]
        have : ¬ dt < today := by omega
        simp [this, not_le.mpr hgt, hle]
      rw [hcons, hstep]
      obtain ⟨e, s, n⟩ := expiryBuckets today es
      simp [Nat.add_comm]
    · intro hgt
      have hstep : expiryStep today ⟨0, 0, 0⟩ row = ⟨0, 0, 0⟩ := by
        unfold expiryStep
        rw [if_neg h1, h2]
        have h3 : ¬ dt < today := by omega
        have h4 : ¬ dt ≤ today + 30 := by omega
        have h5 : ¬ dt ≤ today + 90 := by omega
        simp [h3, h4, h5]
      rw [hcons, hstep]
      obtain ⟨e, s, n⟩ := expiryBuckets today es
      simp

/-- Witness for C6: with today = 2025-01-01, an entry due 2025-02-01
(31 days out) lands in the 90-day bucket only, and an entry due exactly
today lands in the 30-day bucket, not in expired. -/
theorem expiry_bucketing_witness :
    iso_to_date "2025-02-01" = some (toOrdinal 2025 1 1 + 31) ∧
    iso_to_date "2025-01-01" = some (toOrdinal 2025 1 1) ∧
    expiryBuckets (toOrdinal 2025 1 1) [rowDue31] = ⟨0, 0, 1⟩ ∧
    expiryBuckets (toOrdinal 2025 1 1) [rowDueToday] = ⟨0, 1, 0⟩ := by
  have h31 := (expiry_bucketing (toOrdinal 2025 1 1) rowDue31 []).2
    (toOrdinal 2025 1 1 + 31) (by decide) (by decide)
  have e31 := h31.2.2.1 (by omega) (by omega)
  have h0 := (expiry_bucketing (toOrdinal 2025 1 1) rowDueToday []).2
    (toOrdinal 2025 1 1) (by decide) (by decide)
  have e0 := h0.2.1 (le_refl _) (by omega)
  exact ⟨by decide, by decide, e31, e0⟩

/-- Counterexample to C7 as stated: for a bottle entry whose name reads
`0ml`, the per-unit volume *is* parsed (as zero), yet the conversion
raises instead of multiplying — Python's `if not vol_l:` treats the
parsed 0.0 like a parse failure, so the claimed "multiplies qty by the
parsed per-unit volume" does not hold at this input. -/
theorem convert_water_zero_volume_counterexample :
    waterVolL (waterText "水 0ml" "") = some 0 ∧
    convert_water_to_liters 1 "本" "水 0ml" "" =
      .error "水の単位が本/個ですが、品名/メモから容量(ml/L)が読めません" ∧
    convert_water_to_liters 1 "本" "水 0ml" "" ≠ .ok (1 * 0) := by
  refine ⟨by with_unfolding_all decide, by with_unfolding_all decide,
    by with_unfolding_all decide⟩

/-- C7 (amended): water conversion passes liters (and the liter aliases,
including a blank unit) through unchanged, divides milliliters by 1000,
multiplies cubic meters by 1000; for bottle/can/each units it multiplies
the quantity by the per-unit volume parsed from the name/memo text
provided that volume is non-zero, and raises a descriptive error when no
volume (or only a zero volume) can be parsed; for box/case units it
requires both a non-zero parsed volume and a non-zero parsed pack count
and multiplies through, raising a descriptive error otherwise; for any
other unit it raises a descriptive error.  No branch ever guesses or
defaults a number. -/
theorem convert_water_correct (q : ℚ) (unit name memo : String) :
    ((["", "l", "ℓ", "ｌ", "リットル"] : List String).contains
        (waterUnitNorm unit) = true →
      convert_water_to_liters q unit name memo = .ok q) ∧
    ((["ml", "ｍｌ", "milliliter"] : List String).contains
        (waterUnitNorm unit) = true →
      convert_water_to_liters q unit name memo = .ok (q / 1000)) ∧
    ((["m3", "㎥", "m^3", "立方メートル"] : List String).contains
        (waterUnitNorm unit) = true →
      convert_water_to_liters q unit name memo = .ok (q * 1000)) ∧
    ((["本", "ぼん", "ボトル", "缶", "個"] : List String).contains
        (waterUnitNorm unit) = true →
      (∀ v : ℚ, waterVolL (waterText name memo) = some v → ¬ v = 0 →
        convert_water_to_liters q unit name memo = .ok (q * v)) ∧
      (waterVolL (waterText name memo) = none ∨
          waterVolL (waterText name memo) = some 0 →
        ∃ e, convert_water_to_liters q unit name memo = .error e)) ∧
    ((["箱", "ケース", "case"] : List String).contains
        (waterUnitNorm unit) = true →
      (∀ (v : ℚ) (c : Nat), waterVolL (waterText name memo) = some v →
        ¬ v = 0 → packCount (waterText name memo) = some c → ¬ c = 0 →
        convert_water_to_liters q unit name memo = .ok (q * (c : ℚ) * v)) ∧
      ((waterVolL (waterText name memo) = none ∨
          waterVolL (waterText name memo) = some 0 ∨
          packCount (waterText name memo) = none ∨
          packCount (waterText name memo) = some 0) →
        ∃ e, convert_water_to_liters q unit name memo = .error e)) ∧
    ((["", "l", "ℓ", "ｌ", "リットル"] : List String).contains
        (waterUnitNorm unit) = false →
      (["ml", "ｍｌ", "milliliter"] : List String).contains
        (waterUnitNorm unit) = false →
      (["m3", "㎥", "m^3", "立方メートル"] : List String).contains
        (waterUnitNorm unit) = false →
      (["本", "ぼん", "ボトル", "缶", "個"] : List String).contains
        (waterUnitNorm unit) = false →
      (["箱", "ケース", "case"] : List String).contains
        (waterUnitNorm unit) = false →
      ∃ e, convert_water_to_liters q unit name memo = .error e) := by
  refine ⟨?_, ?_, ?_, ?_, ?_, ?_⟩
  · intro h
    obtain h1 | h1 | h1 | h1 | h1 :
        waterUnitNorm unit = "" ∨ waterUnitNorm unit = "l" ∨
          waterUnitNorm unit = "ℓ" ∨ waterUnitNorm unit = "ｌ" ∨
          waterUnitNorm unit = "リットル" := by simpa using h
    all_goals simp only [convert_water_to_liters, h1]
    all_goals simp
  · intro h
    obtain h1 | h1 | h1 :
        waterUnitNorm unit = "ml" ∨ waterUnitNorm unit = "ｍｌ" ∨
          waterUnitNorm unit = "milliliter" := by simpa using h
    all_goals simp only [convert_water_to_liters, h1]
    all_goals simp
  · intro h
    obtain h1 | h1 | h1 | h1 :
        waterUnitNorm unit = "m3" ∨ waterUnitNorm unit = "㎥" ∨
          waterUnitNorm unit = "m^3" ∨ waterUnitNorm unit = "立方メートル" := by
      simpa using h
    all_goals simp only [convert_water_to_liters, h1]
    all_goals simp
  · intro h
    obtain h1 | h1 | h1 | h1 | h1 :
        waterUnitNorm unit = "本" ∨ waterUnitNorm unit = "ぼん" ∨
          waterUnitNorm unit = "ボトル" ∨ waterUnitNorm unit = "缶" ∨
          waterUnitNorm unit = "個" := by simpa using h
    all_goals constructor
    all_goals first
      | (intro v hv hvz
         simp only [convert_water_to_liters, h1, hv]
         simp [hvz])
      | (intro hor
         refine ⟨"水の単位が本/個ですが、品名/メモから容量(ml/L)が読めません", ?_⟩
         rcases hor with hv | hv
         all_goals simp only [convert_water_to_liters, h1, hv]
         all_goals simp)
  · intro h
    obtain h1 | h1 | h1 :
        waterUnitNorm unit = "箱" ∨ waterUnitNorm unit = "ケース" ∨
          waterUnitNorm unit = "case" := by simpa using h
    all_goals constructor
    all_goals first
      | (intro v c hv hvz hc hcz
         simp only [convert_water_to_liters, h1, hv, hc]
         simp [hvz, hcz])
      | (intro hor
         rcases hor with hv | hv | hc | hc
         case inl =>
           refine ⟨"水の単位が箱/ケースですが、品名/メモから容量(ml/L)が読めません", ?_⟩
           simp only [convert_water_to_liters, h1, hv]
           simp
         case inr.inl =>
           refine ⟨"水の単位が箱/ケースですが、品名/メモから容量(ml/L)が読めません", ?_⟩
           simp only [convert_water_to_liters, h1, hv]
           simp
         case inr.inr.inl =>
           by_cases hv : waterVolL (waterText name memo) = none
           · refine ⟨"水の単位が箱/ケースですが、品名/メモから容量(ml/L)が読めません", ?_⟩
             simp only [convert_water_to_liters, h1, hv]
             simp
           · obtain ⟨v, hv2⟩ := Option.ne_none_iff_exists.mp hv
             by_cases hvz : v = 0
             · refine ⟨"水の単位が箱/ケースですが、品名/メモから容量(ml/L)が読めません", ?_⟩
               simp only [convert_water_to_liters, h1, ← hv2, hvz]
               simp
             · refine ⟨"箱/ケースですが、品名/メモから入数（例: ×24本 / 24本入）が読めません", ?_⟩
               simp only [convert_water_to_liters, h1, ← hv2, hc]
               simp [hvz]
         case inr.inr.inr =>
           by_cases hv : waterVolL (waterText name memo) = none
           · refine ⟨"水の単位が箱/ケースですが、品名/メモから容量(ml/L)が読めません", ?_⟩
             simp only [convert_water_to_liters, h1, hv]
             simp
           · obtain ⟨v, hv2⟩ := Option.ne_none_iff_exists.mp hv
             by_cases hvz : v = 0
             · refine ⟨"水の単位が箱/ケースですが、品名/メモから容量(ml/L)が読めません", ?_⟩
               simp only [convert_water_to_liters, h1, ← hv2, hvz]
               simp
             · refine ⟨"箱/ケースですが、品名/メモから入数（例: ×24本 / 24本入）が読めません", ?_⟩
               simp only [convert_water_to_liters, h1, ← hv2, hc]
               simp [hvz])
  · intro h1 h2 h3 h4 h5
    refine ⟨"水の単位 " ++ unit ++ " をL換算できません（推奨: L / ml / m3 / 本 / ケース）", ?_⟩
    simp only [convert_water_to_liters]
    rw [if_neg (by simpa using h1), if_neg (by simpa using h2),
      if_neg (by simpa using h3), if_neg (by simpa using h4),
      if_neg (by simpa using h5)]

/-- Witness for the amended C7: 24 bottles labelled 500 ml convert to
exactly 12 liters. -/
theorem convert_water_correct_witness :
    (["本", "ぼん", "ボトル", "缶", "個"] : List String).contains
        (waterUnitNorm "本") = true ∧
    waterVolL (waterText "水 500ml" "") = some (1 / 2) ∧
    convert_water_to_liters 24 "本" "水 500ml" "" = .ok 12 := by
  have hv : waterVolL (waterText "水 500ml" "") = some (1 / 2) := by
    with_unfolding_all decide
  have h := ((convert_water_correct 24 "本" "水 500ml" "").2.2.2.1
    (by decide)).1 (1 / 2) hv (by with_unfolding_all decide)
  exact ⟨by decide, hv, h.trans (by with_unfolding_all decide)⟩

theorem normalize_due_none_date (a b c : String) :
    (normalize_due a b c).1 = "none" → (normalize_due a b c).2.1 = "" := by
  simp only [normalize_due]
  split_ifs <;> intro h <;> first | rfl | exact absurd h (by assumption)

theorem normalize_due_invalid (a b c : String)
    (h : ALLOWED_DUE_TYPES.contains (pyLower (pyStrip (pyOrStr a "none"))) =
      false) :
    normalize_due a b c = ("none", "", c) := by
  simp only [normalize_due, h, Bool.false_eq_true, if_false,
    eq_self_iff_true, if_true]

theorem mergeFn_due (r : Record) (row row2 : Row) :
    (mergeFn r row row2).due_type = row2.due_type ∧
    (mergeFn r row row2).due_date = row2.due_date := by
  unfold mergeFn
  split <;> exact ⟨rfl, rfl⟩

theorem updateMergeFn_due (r : Record) (target row : Row) :
    (updateMergeFn r target row).due_type = row.due_type ∧
    (updateMergeFn r target row).due_date = row.due_date := by
  unfold updateMergeFn
  split <;> exact ⟨rfl, rfl⟩

theorem newRow_due_inv (r : Record) (i : Nat) :
    (newRow r i).due_type = "none" → (newRow r i).due_date = "" :=
  normalize_due_none_date r.due_type r.due_date r.memo

theorem DueInv_upsertOk {r : Record} {L : Ledger} (h : DueInv L) :
    DueInv (upsertOk r L) := by
  by_cases hv : validRecord r
  · cases hf : L.rows.find? (fun x => decide (x.key = recordKey r)) with
    | some row =>
      rw [upsertOk_merged hv.1 (not_lt.mpr hv.2) hf]
      intro x hx
      obtain ⟨y, hy, rfl⟩ := List.mem_map.mp hx
      rw [(mergeFn_due r row y).1, (mergeFn_due r row y).2]
      exact h y hy
    | none =>
      rw [upsertOk_inserted hv.1 (not_lt.mpr hv.2) hf]
      intro x hx
      rcases List.mem_append.mp hx with hm | hm
      · exact h x hm
      · have : x = newRow r L.nextId := by simpa using hm
        subst this
        exact newRow_due_inv r L.nextId
  · rw [upsertOk_invalid hv]
    exact h

theorem upsert_stock_ledger (r : Record) (L : Ledger) :
    (upsert_stock r L).2 = upsertOk r L := by
  unfold upsert_stock upsertOk
  cases upsert_in_conn r L with
  | ok v => obtain ⟨a, i, L2⟩ := v; rfl
  | error e => rfl

theorem DueInv_bulkGo (atomic : Bool) (items : List Record) :
    ∀ (L0 cur : Ledger) (idx ins mer : Nat) (errs : List BulkError),
      DueInv L0 → DueInv cur →
      DueInv (bulkGo atomic L0 items idx ins mer errs cur).2 := by
  induction items with
  | nil => intro _ cur _ _ _ _ _ hcur; exact hcur
  | cons it rest ih =>
    intro L0 cur idx ins mer errs h0 hcur
    cases hu : upsert_in_conn it cur with
    | ok v =>
      obtain ⟨a, i, L2⟩ := v
      have hL2 : DueInv L2 := by
        have : upsertOk it cur = L2 := by unfold upsertOk; rw [hu]
        rw [← this]
        exact DueInv_upsertOk hcur
      rw [bulkGo_cons_ok atomic L0 rest idx ins mer errs hu]
      cases a
      · rw [if_pos rfl]
        exact ih L0 L2 (idx + 1) (ins + 1) mer errs h0 hL2
      · rw [if_neg (by decide)]
        exact ih L0 L2 (idx + 1) ins (mer + 1) errs h0 hL2
    | error e =>
      rw [bulkGo_cons_error atomic L0 rest idx ins mer errs hu]
      cases atomic
      · rw [if_neg (by decide)]
        exact ih L0 cur (idx + 1) ins mer (errs ++ [⟨idx, e⟩]) h0 hcur
      · rw [if_pos rfl]
        exact h0

theorem DueInv_update_stock (sid : Nat) (r : Record) (L : Ledger)
    (h : DueInv L) : DueInv (update_stock sid r L).2 := by
  unfold update_stock
  split_ifs with h1 h2
  · exact h
  · exact h
  · cases hf : L.rows.find? (fun row =>
        decide (row.key = recordKey r ∧ row.id ≠ sid)) with
    | some target =>
      intro x hx
      simp only at hx
      have hx2 := List.mem_of_mem_filter hx
      obtain ⟨y, hy, rfl⟩ := List.mem_map.mp hx2
      rw [(updateMergeFn_due r target y).1, (updateMergeFn_due r target y).2]
      exact h y hy
    | none =>
      intro x hx
      simp only at hx
      obtain ⟨y, hy, rfl⟩ := List.mem_map.mp hx
      unfold updateSetFn
      split
      · exact newRow_due_inv r sid
      · exact h y hy

theorem DueInv_replayLegacy (rows : List LegacyRow) :
    ∀ (L L2 : Ledger), DueInv L → replayLegacy rows L = .ok L2 →
      DueInv L2 := by
  induction rows with
  | nil =>
    intro L L2 h hrep
    obtain rfl : L = L2 := by simpa [replayLegacy] using hrep
    exact h
  | cons lr rest ih =>
    intro L L2 h hrep
    cases hu : upsert_in_conn (legacyToRecord lr) L with
    | ok v =>
      obtain ⟨a, i, Lmid⟩ := v
      have hmid : DueInv Lmid := by
        have : upsertOk (legacyToRecord lr) L = Lmid := by
          unfold upsertOk; rw [hu]
        rw [← this]
        exact DueInv_upsertOk h
      simp only [replayLegacy, hu] at hrep
      exact ih Lmid L2 hmid hrep
    | error e =>
      simp only [replayLegacy, hu] at hrep
      exact Except.noConfusion hrep

theorem dedupeRows_due (n : Nat) :
    ∀ l : List Row, l.length ≤ n → ∀ x ∈ dedupeRows l,
      ∃ y ∈ l, x.due_type = y.due_type ∧ x.due_date = y.due_date := by
  induction n with
  | zero =>
    intro l hlen x hx
    obtain rfl : l = [] := List.length_eq_zero.mp (Nat.le_zero.mp hlen)
    simp [dedupeRows] at hx
  | succ n ih =>
    intro l hlen x hx
    cases l with
    | nil => simp [dedupeRows] at hx
    | cons row rest =>
      simp only [dedupeRows] at hx
      by_cases hs : rest.filter (fun x => decide (x.key = row.key)) = []
      · rw [if_pos hs] at hx
        rcases List.mem_cons.mp hx with rfl | hx
        · exact ⟨x, by simp, rfl, rfl⟩
        · have hlen2 :
              (rest.filter (fun x => decide (¬ x.key = row.key))).length ≤ n := by
            have := List.length_filter_le
              (fun x => decide (¬ x.key = row.key)) rest
            simp only [List.length_cons] at hlen
            omega
          obtain ⟨y, hy, hd⟩ := ih _ hlen2 x hx
          exact ⟨y, by simp [List.mem_of_mem_filter hy], hd⟩
      · rw [if_neg hs] at hx
        rcases List.mem_cons.mp hx with rfl | hx
        · exact ⟨row, by simp, rfl, rfl⟩
        · have hlen2 :
              (rest.filter (fun x => decide (¬ x.key = row.key))).length ≤ n := by
            have := List.length_filter_le
              (fun x => decide (¬ x.key = row.key)) rest
            simp only [List.length_cons] at hlen
            omega
          obtain ⟨y, hy, hd⟩ := ih _ hlen2 x hx
          exact ⟨y, by simp [List.mem_of_mem_filter hy], hd⟩

theorem DueInv_dedupe {L : Ledger} (h : DueInv L) : DueInv (dedupe L) := by
  intro x hx
  obtain ⟨y, hy, hd1, hd2⟩ :=
    dedupeRows_due L.rows.length L.rows (le_refl _) x hx
  rw [hd1, hd2]
  exact h y hy

theorem DueInv_ensureOptionalUnits {L : Ledger} (h : DueInv L) :
    DueInv (ensureOptionalUnits L) := by
  intro x hx
  obtain ⟨y, hy, rfl⟩ := List.mem_map.mp hx
  have hd : ∀ z : Row,
      (if pyStrip z.unit = "" ∧ strContains z.category "水・飲料" then
        { z with unit := "L" }
      else if pyStrip z.unit = "" ∧ strContains z.category "主食類" then
        { z with unit := "食" }
      else if pyStrip z.unit = "" ∧ strContains z.category "トイレ" then
        { z with unit := "回" }
      else z).due_type = z.due_type ∧
      (if pyStrip z.unit = "" ∧ strContains z.category "水・飲料" then
        { z with unit := "L" }
      else if pyStrip z.unit = "" ∧ strContains z.category "主食類" then
        { z with unit := "食" }
      else if pyStrip z.unit = "" ∧ strContains z.category "トイレ" then
        { z with unit := "回" }
      else z).due_date = z.due_date := by
    intro z
    split_ifs <;> exact ⟨rfl, rfl⟩
  rw [(hd y).1, (hd y).2]
  exact h y hy

/-- C8: after any sequence of the write operations — merge-upsert, bulk
upsert, update, and startup migration — every persisted row with
`due_type = "none"` has an empty `due_date` (each operation preserves
the invariant, and migration establishes it from any legacy data), and a
`due_type` outside the allowed set is normalized to `"none"` with the
date forced empty. -/
theorem due_none_invariant :
    (∀ (r : Record) (L : Ledger), DueInv L → DueInv (upsert_stock r L).2) ∧
    (∀ (items : List Record) (atomic : Bool) (L : Ledger), DueInv L →
      DueInv (bulk_upsert items atomic L).2) ∧
    (∀ (sid : Nat) (r : Record) (L : Ledger), DueInv L →
      DueInv (update_stock sid r L).2) ∧
    (∀ (legacy : List LegacyRow) (L : Ledger) (kept : List LegacyRow),
      init_db_migrate legacy = .migrated L kept → DueInv L) ∧
    (∀ a b c : String,
      ALLOWED_DUE_TYPES.contains (pyLower (pyStrip (pyOrStr a "none"))) =
        false →
      normalize_due a b c = ("none", "", c)) := by
  refine ⟨?_, ?_, ?_, ?_, normalize_due_invalid⟩
  · intro r L h
    rw [upsert_stock_ledger]
    exact DueInv_upsertOk h
  · intro items atomic L h
    exact DueInv_bulkGo atomic items L L 0 0 0 [] h h
  · exact DueInv_update_stock
  · intro legacy L kept hmig
    unfold init_db_migrate at hmig
    cases hrep : replayLegacy legacy emptyLedger with
    | ok L1 =>
      rw [hrep] at hmig
      have h1 : DueInv L1 :=
        DueInv_replayLegacy legacy emptyLedger L1
          (by intro row hr; simp [emptyLedger] at hr) hrep
      have h2 : DueInv (dedupe (ensureOptionalUnits L1)) :=
        DueInv_dedupe (DueInv_ensureOptionalUnits h1)
      obtain ⟨rfl, -⟩ : dedupe (ensureOptionalUnits L1) = L ∧ legacy = kept := by
        constructor <;> [exact (MigResult.migrated.injEq _ _ _ _).mp hmig |>.1;
          exact (MigResult.migrated.injEq _ _ _ _).mp hmig |>.2]
      exact h2
    | error e =>
      rw [hrep] at hmig
      exact MigResult.noConfusion hmig

/-- Witness for C8 at concrete inputs: the empty ledger satisfies the
invariant, one merge-upsert preserves it, and an unknown due type is
normalized to `none` with an emptied date. -/
theorem due_none_invariant_witness :
    DueInv emptyLedger ∧ DueInv (upsert_stock recW emptyLedger).2 ∧
    normalize_due "whenever" "2025-01-01" "m" = ("none", "", "m") := by
  have hemp : DueInv emptyLedger := by
    intro row hr
    simp [emptyLedger] at hr
  exact ⟨hemp, due_none_invariant.1 recW emptyLedger hemp,
    due_none_invariant.2.2.2.2 "whenever" "2025-01-01" "m" (by decide)⟩

/-- Counterexample to C9 as stated: `_upsert_in_conn` stores the
stripped free-text category unchanged — a record whose category is
`drinks` is persisted with category `drinks`, which is not in the
canonical set, so persisted categories are not restricted to it (and the
canonical identity uses the raw category). -/
theorem category_storage_counterexample :
    (upsertOk recFreeCat emptyLedger).rows.map Row.category = ["drinks"] ∧
    ¬ "drinks" ∈ CATEGORY_KEYS := by
  exact ⟨by decide, by decide⟩

theorem getCatKeyGo_spec (ks : List String) (s : String) :
    (∃ l1 l2, ks = l1 ++ getCatKeyGo ks s :: l2 ∧
      strContains s (getCatKeyGo ks s) = true ∧
      ∀ k ∈ l1, strContains s k = false) ∨
    (getCatKeyGo ks s = "その他" ∧ ∀ k ∈ ks, strContains s k = false) := by
  induction ks with
  | nil => exact .inr ⟨rfl, by simp⟩
  | cons k ks ih =>
    by_cases hk : strContains s k
    · left
      refine ⟨[], ks, ?_, ?_, by simp⟩
      · simp [getCatKeyGo, hk]
      · simp only [getCatKeyGo, if_pos hk]
        exact hk
    · have hgo : getCatKeyGo (k :: ks) s = getCatKeyGo ks s := by
        simp only [getCatKeyGo]
        rw [if_neg hk]
      rcases ih with ⟨l1, l2, heq, hc, hall⟩ | ⟨h1, h2⟩
      · left
        refine ⟨k :: l1, l2, ?_, ?_, ?_⟩
        · rw [hgo, List.cons_append]
          exact congrArg (k :: ·) heq
        · rw [hgo]; exact hc
        · intro x hx
          rcases List.mem_cons.mp hx with rfl | hx
          · exact Bool.eq_false_iff.mpr hk
          · exact hall x hx
      · right
        refine ⟨by rw [hgo]; exact h1, ?_⟩
        intro x hx
        rcases List.mem_cons.mp hx with rfl | hx
        · exact Bool.eq_false_iff.mpr hk
        · exact h2 x hx

theorem map_comp_eq {α β : Type} (f : α → α) (g : α → β)
    (h : ∀ x, g (f x) = g x) (l : List α) : (l.map f).map g = l.map g := by
  induction l with
  | nil => rfl
  | cons a t ih => simp [h a, ih]

/-- C9 (amended): a persisted entry's category is the stripped free-text
input (empty defaulting to `その他`), not restricted to the canonical
set, and it participates raw in the canonical identity; the mapping onto
the fixed canonical set — substring containment against each canonical
label in order, first match wins, fallback `その他` — is applied at
read/aggregation time by `get_cat_key`, whose result always lies in the
canonical set. -/
theorem category_canonicalization (cat : String) :
    get_cat_key cat ∈ CATEGORY_KEYS ∧
    ((∃ l1 l2, CATEGORY_KEYS = l1 ++ get_cat_key cat :: l2 ∧
        strContains cat (get_cat_key cat) = true ∧
        ∀ k ∈ l1, strContains cat k = false) ∨
      (get_cat_key cat = "その他" ∧
        ∀ k ∈ CATEGORY_KEYS, strContains cat k = false)) ∧
    (∀ (r : Record) (L : Ledger), validRecord r →
      (upsertOk r L).rows.map Row.category = L.rows.map Row.category ∨
      (upsertOk r L).rows.map Row.category =
        L.rows.map Row.category ++ [categoryArg r.category]) := by
  have hspec := getCatKeyGo_spec CATEGORY_KEYS cat
  refine ⟨?_, hspec, ?_⟩
  · rcases hspec with ⟨l1, l2, heq, -, -⟩ | ⟨h1, -⟩
    · have hmem : getCatKeyGo CATEGORY_KEYS cat ∈
          l1 ++ getCatKeyGo CATEGORY_KEYS cat :: l2 := by simp
      rw [← heq] at hmem
      exact hmem
    · rw [show get_cat_key cat = getCatKeyGo CATEGORY_KEYS cat from rfl, h1]
      decide
  · intro r L hv
    cases hf : L.rows.find? (fun x => decide (x.key = recordKey r)) with
    | some row =>
      left
      rw [upsertOk_merged hv.1 (not_lt.mpr hv.2) hf]
      exact map_comp_eq _ _
        (fun y => by unfold mergeFn; split <;> rfl) L.rows
    | none =>
      right
      rw [upsertOk_inserted hv.1 (not_lt.mpr hv.2) hf]
      simp [newRow]

/-- Witness for the amended C9: the free-text category `ミネラル水・飲料
(2L)` maps to the canonical `水・飲料` at aggregation time, while the
stored category of a persisted `drinks` record stays `drinks`. -/
theorem category_canonicalization_witness :
    get_cat_key "ミネラル水・飲料 (2L)" ∈ CATEGORY_KEYS ∧
    get_cat_key "drinks" = "その他" ∧
    ((upsertOk recFreeCat emptyLedger).rows.map Row.category =
        ([] : List Row).map Row.category ∨
      (upsertOk recFreeCat emptyLedger).rows.map Row.category =
        ([] : List Row).map Row.category ++ [categoryArg recFreeCat.category]) := by
  refine ⟨(category_canonicalization "ミネラル水・飲料 (2L)").1, by decide, ?_⟩
  exact (category_canonicalization "drinks").2.2 recFreeCat emptyLedger
    (by constructor <;> decide)

theorem filter_eq_self_of {α : Type} {p : α → Bool} {l : List α}
    (h : ∀ x ∈ l, p x = true) : l.filter p = l := by
  induction l with
  | nil => rfl
  | cons a t ih =>
    rw [List.filter_cons_of_pos (h a (by simp)),
      ih (fun x hx => h x (by simp [hx]))]

theorem updateMergeFn_id (r : Record) (target row : Row) :
    (updateMergeFn r target row).id = row.id := by
  unfold updateMergeFn
  split <;> rfl

/-- C10: `update_stock` of an edit whose normalized identity collides
with a *different* existing row merges the two rows — the colliding row
absorbs the edited quantity, its memo is replaced by the incoming
(normalized) memo even when that memo is empty, the edited row is
deleted, and with a well-formed ledger holding the edited id the row
count drops by one; with no collision the row is rewritten in place
under its own id with every normalized field. -/
theorem update_stock_merges_on_collision (sid : Nat) (r : Record)
    (L : Ledger) (hv : validRecord r) (hwf : WF L) :
    (∀ target,
      L.rows.find?
          (fun row => decide (row.key = recordKey r ∧ row.id ≠ sid)) =
        some target →
      (update_stock sid r L).1 = .ok ("merged_on_update", target.id) ∧
      (update_stock sid r L).2.rows =
        (L.rows.map (updateMergeFn r target)).filter
          (fun row => decide (row.id ≠ sid)) ∧
      (∀ x ∈ (update_stock sid r L).2.rows, x.id ≠ sid) ∧
      (∀ x ∈ (update_stock sid r L).2.rows, x.id = target.id →
        x.qty = target.qty + r.qty ∧ x.memo = recordMemo r) ∧
      target.id ∈ (update_stock sid r L).2.rows.map Row.id ∧
      (sid ∈ L.rows.map Row.id →
        (update_stock sid r L).2.rows.length + 1 = L.rows.length)) ∧
    (L.rows.find?
        (fun row => decide (row.key = recordKey r ∧ row.id ≠ sid)) =
      none →
      (update_stock sid r L).1 = .ok ("updated", sid) ∧
      (update_stock sid r L).2.rows = L.rows.map (updateSetFn r sid)) := by
  have hname : ¬ normalize_name r.name = "" := hv.1
  have hqty : ¬ r.qty < 0 := not_lt.mpr hv.2
  constructor
  · intro target hf
    have hcond := List.find?_some hf
    have htid : target.id ≠ sid := (of_decide_eq_true hcond).2
    have htmem : target ∈ L.rows := List.mem_of_find?_eq_some hf
    have hres : update_stock sid r L =
        (.ok ("merged_on_update", target.id),
          { L with rows := (L.rows.map (updateMergeFn r target)).filter (fun row => decide (row.id ≠ sid)) }) := by
      unfold update_stock
      rw [if_neg hname, if_neg hqty, hf]
    rw [hres]
    dsimp only
    refine ⟨rfl, rfl, ?_, ?_, ?_, ?_⟩
    · intro x hx
      exact of_decide_eq_true (List.mem_filter.mp hx).2
    · intro x hx hxid
      have hx2 := List.mem_of_mem_filter hx
      obtain ⟨y, -, rfl⟩ := List.mem_map.mp hx2
      unfold updateMergeFn at hxid ⊢
      by_cases hy : y.id = target.id
      · rw [if_pos hy] at hxid ⊢
        exact ⟨rfl, rfl⟩
      · rw [if_neg hy] at hxid
        exact absurd hxid hy
    · have hmem : updateMergeFn r target target ∈
          (L.rows.map (updateMergeFn r target)).filter
            (fun row => decide (row.id ≠ sid)) := by
        refine List.mem_filter.mpr ⟨List.mem_map_of_mem _ htmem, ?_⟩
        rw [updateMergeFn_id]
        exact decide_eq_true htid
      exact List.mem_map.mpr ⟨_, hmem, updateMergeFn_id r target target⟩
    · intro hsid
      obtain ⟨y, hymem, hyid⟩ : ∃ y ∈ L.rows, y.id = sid := by
        obtain ⟨y, hy, hid⟩ := List.mem_map.mp hsid
        exact ⟨y, hy, hid⟩
      obtain ⟨l1, l2, hL⟩ := List.append_of_mem hymem
      have hids : ∀ x ∈ l1 ++ l2, x.id ≠ sid := by
        intro x hx hxid
        have hxmem : x ∈ L.rows := by
          rw [hL]
          rcases List.mem_append.mp hx with h | h <;> simp [h]
        have hxy : x = y := WF_id_unique hwf hxmem hymem (by rw [hxid, hyid])
        subst hxy
        have hpw := hwf.1
        rw [hL] at hpw
        rcases List.mem_append.mp hx with h | h
        · exact (List.pairwise_append.mp hpw).2.2 x h x (by simp) rfl
        · exact (List.pairwise_cons.mp
            (List.pairwise_append.mp hpw).2.1).1 x h rfl
      rw [hL]
      simp only [List.map_append, List.map_cons, List.filter_append,
        List.filter_cons]
      rw [filter_eq_self_of (fun x hx => by
          obtain ⟨z, hz, rfl⟩ := List.mem_map.mp hx
          rw [updateMergeFn_id]
          exact decide_eq_true (hids z (List.mem_append.mpr (.inl hz)))),
        filter_eq_self_of (fun x hx => by
          obtain ⟨z, hz, rfl⟩ := List.mem_map.mp hx
          rw [updateMergeFn_id]
          exact decide_eq_true (hids z (List.mem_append.mpr (.inr hz))))]
      have hyfalse : (decide ((updateMergeFn r target y).id ≠ sid)) = false := by
        rw [updateMergeFn_id]
        simp [hyid]
      rw [hyfalse]
      simp only [if_false, Bool.false_eq_true]
      simp [List.length_append]
      omega
  · intro hf
    have hres : update_stock sid r L =
        (.ok ("updated", sid),
          { L with rows := L.rows.map (updateSetFn r sid) }) := by
      unfold update_stock
      rw [if_neg hname, if_neg hqty, hf]
    rw [hres]
    exact ⟨rfl, rfl⟩

/-- Witness for C10: editing rowid 2 into `rowA`'s identity merges the
rows — quantity 2 + 5, memo overwritten by the empty incoming memo, row 2
deleted — leaving a single row with id 1. -/
theorem update_stock_merges_on_collision_witness :
    L10.rows.find?
        (fun row => decide (row.key = recordKey rec10 ∧ row.id ≠ 2)) =
      some rowA ∧
    (update_stock 2 rec10 L10).1 = .ok ("merged_on_update", 1) ∧
    (update_stock 2 rec10 L10).2.rows.map Row.id = [1] ∧
    (update_stock 2 rec10 L10).2.rows.map Row.memo = [""] ∧
    (update_stock 2 rec10 L10).2.rows.length + 1 = L10.rows.length := by
  have hv : validRecord rec10 := by constructor <;> decide
  have hwf : WF L10 := by
    constructor
    · decide
    · decide
  have hf : L10.rows.find?
      (fun row => decide (row.key = recordKey rec10 ∧ row.id ≠ 2)) =
      some rowA := by decide
  have h := (update_stock_merges_on_collision 2 rec10 L10 hv hwf).1 rowA hf
  exact ⟨hf, by rw [h.1]; decide, by decide, by decide,
    h.2.2.2.2.2 (by decide)⟩

end Bousai
